import Mathlib

/-!
Verification of the media/metadata store subsystem of the pats-funhaus
gallery server (src/app/config.py and src/app/main.py), as a shallow
embedding in Lean.

Strings are Lean `String`s; Python `None` becomes `Option.none`.
`str.isalnum` is modelled for the ASCII range by `Char.isAlphanum`
(every input exercised by the claims is ASCII); Python `str.strip`
strips whitespace, which on the output of the category cleaning filter
can only be the space character.
-/

namespace PatsFunhaus

/-- Characters kept by the cleaning step of `Settings.normalize_category`
(config.py line 54): alphanumerics, hyphen, underscore, space. -/
def pyKeepChar (c : Char) : Bool :=
  c.isAlphanum || c == '-' || c == '_' || c == ' '

/-- Remove leading spaces from a character list. -/
def dropLeadingSpaces (l : List Char) : List Char :=
  l.dropWhile (fun c => c == ' ')

/-- Python `str.strip()` on a string whose only whitespace is the space
character: remove spaces from both ends. -/
def stripSpaces (l : List Char) : List Char :=
  ((dropLeadingSpaces l).reverse.dropWhile (fun c => c == ' ')).reverse

/-- The `replace(" ", "_")` step of `Settings.normalize_category`
(config.py line 55), per character. -/
def spaceToUnderscore (c : Char) : Char :=
  if c == ' ' then '_' else c

/-- Model of `Settings.normalize_category` (config.py lines 50-56): keep only
alphanumerics, hyphen, underscore and space; strip; replace spaces with
underscores; an empty result (and a `None` input) maps to `None`. -/
def normalize_category : Option String → Option String
  | none => none
  | some s =>
    let cleaned := s.toList.filter pyKeepChar
    let out := (stripSpaces cleaned).map spaceToUnderscore
    if out.isEmpty then none else some (String.mk out)

theorem mem_dropLeadingSpaces {c : Char} {l : List Char}
    (h : c ∈ dropLeadingSpaces l) : c ∈ l :=
  (List.dropWhile_sublist _).subset h

theorem mem_stripSpaces {c : Char} {l : List Char}
    (h : c ∈ stripSpaces l) : c ∈ l := by
  unfold stripSpaces at h
  rw [List.mem_reverse] at h
  have h2 := (List.dropWhile_sublist (l := (dropLeadingSpaces l).reverse)
    (p := fun c => c == ' ')).subset h
  rw [List.mem_reverse] at h2
  exact mem_dropLeadingSpaces h2

theorem dropWhile_eq_self_of_not {p : Char → Bool} {l : List Char}
    (h : ∀ c ∈ l, ¬ p c) : l.dropWhile p = l := by
  cases l with
  | nil => rfl
  | cons a t =>
    simp [List.dropWhile_cons, h a (List.mem_cons_self a t)]

/-- Every character surviving normalization is a kept character and is
not a space. -/
theorem normalized_chars {l : List Char} {c : Char}
    (h : c ∈ (stripSpaces (l.filter pyKeepChar)).map spaceToUnderscore) :
    pyKeepChar c = true ∧ c ≠ ' ' := by
  rcases List.mem_map.mp h with ⟨d, hd, hcd⟩
  have hdk : pyKeepChar d = true := (List.mem_filter.mp (mem_stripSpaces hd)).2
  by_cases hsp : d = ' '
  · subst hsp
    rw [show spaceToUnderscore ' ' = '_' from by decide] at hcd
    subst hcd
    exact ⟨by decide, by decide⟩
  · have hc : c = d := by
      rw [← hcd]
      simp [spaceToUnderscore, hsp]
    subst hc
    exact ⟨hdk, hsp⟩

theorem stripSpaces_eq_self {l : List Char} (h : ∀ c ∈ l, c ≠ ' ') :
    stripSpaces l = l := by
  have h1 : l.dropWhile (fun c => c == ' ') = l :=
    dropWhile_eq_self_of_not (fun c hc => by simpa using h c hc)
  unfold stripSpaces dropLeadingSpaces
  rw [h1, dropWhile_eq_self_of_not (fun c hc => by
    simpa using h c (List.mem_reverse.mp hc)), List.reverse_reverse]

theorem map_eq_self_of {f : Char → Char} {l : List Char}
    (h : ∀ c ∈ l, f c = c) : l.map f = l := by
  induction l with
  | nil => rfl
  | cons a t ih =>
    simp only [List.map_cons, h a (List.mem_cons_self a t),
      ih (fun c hc => h c (List.mem_cons_of_mem a hc))]

/-- Applying normalization to a list of already-normalized characters is
the identity. -/
theorem normalize_on_normalized {out : List Char}
    (h : ∀ c ∈ out, pyKeepChar c = true ∧ c ≠ ' ') (hne : out.isEmpty = false) :
    normalize_category (some (String.mk out)) = some (String.mk out) := by
  simp only [normalize_category]
  have h1 : (String.mk out).toList = out := rfl
  rw [h1]
  rw [List.filter_eq_self.mpr (fun c hc => (h c hc).1)]
  rw [stripSpaces_eq_self (fun c hc => (h c hc).2)]
  rw [map_eq_self_of (fun c hc => by simp [spaceToUnderscore, (h c hc).2])]
  simp [hne]

/-- The result of normalization on a present string is either none or a
nonempty string of normalized characters. -/
theorem normalize_category_some_eq (s : String) :
    normalize_category (some s) = none ∨
    ∃ out, normalize_category (some s) = some (String.mk out) ∧
      out.isEmpty = false ∧ ∀ c ∈ out, pyKeepChar c = true ∧ c ≠ ' ' := by
  by_cases he : ((stripSpaces (s.toList.filter pyKeepChar)).map spaceToUnderscore).isEmpty
  · left
    simp only [normalize_category]
    rw [if_pos he]
  · right
    refine ⟨(stripSpaces (s.toList.filter pyKeepChar)).map spaceToUnderscore,
      ?_, by simpa using he, fun c hc => normalized_chars hc⟩
    simp only [normalize_category]
    rw [if_neg he]

theorem normalize_category_idem (x : Option String) :
    normalize_category (normalize_category x) = normalize_category x := by
  cases x with
  | none => rfl
  | some s =>
    rcases normalize_category_some_eq s with h | ⟨out, h, hne, hch⟩
    · rw [h]; rfl
    · rw [h]; exact normalize_on_normalized hch hne

/-- If normalization of an input yields a value, normalizing that value
again yields the same value. -/
theorem normalize_of_normalize {s t : String}
    (h : normalize_category (some s) = some t) :
    normalize_category (some t) = some t := by
  have := normalize_category_idem (some s)
  rw [h] at this
  exact this

/-- C6: The shared category-normalization function is idempotent
(normalize(normalize(x)) == normalize(x) for every input, a None or
empty result staying None), and it maps the input "My Trip!" to
"My_Trip". -/
theorem C6_normalize_idempotent :
    (∀ x : Option String,
      normalize_category (normalize_category x) = normalize_category x) ∧
    normalize_category (some "My Trip!") = some "My_Trip" :=
  ⟨normalize_category_idem, by decide⟩

/-- A category record (main.py lines 59-61). -/
structure Category where
  name : String
  path : String
deriving DecidableEq, Repr

/-- Errors raised by `CategoryStore` operations. `ValueError` messages
become the first five constructors; `KeyError("Category not found")`
becomes `notFound`. -/
inductive CatErr where
  | invalidName
  | invalidPath
  | invalidNameOrPath
  | duplicateName
  | duplicatePath
  | notFound
deriving DecidableEq, Repr

/-- Model of `CategoryStore.get_by_name` (main.py lines 90-97): normalize the
name, return None on empty, else the first category with that name. -/
def get_by_name (cats : List Category) (name : String) : Option Category :=
  match normalize_category (some name) with
  | none => none
  | some m => cats.find? (fun c => c.name == m)

/-- Model of `CategoryStore.get_by_path` (main.py lines 99-106): None input finds
nothing; otherwise the first category whose path equals the normalized
input (a None normalization compares unequal to every stored path). -/
def get_by_path (cats : List Category) (path : Option String) : Option Category :=
  match path with
  | none => none
  | some p => cats.find? (fun c => (some c.path : Option String) == normalize_category (some p))

/-- The `path or normalized_name` argument of `CategoryStore.add`
(main.py line 113): Python `or` falls through on None and on the empty
string. -/
def addPathArg (nn : String) (path : Option String) : String :=
  match path with
  | none => nn
  | some p => if p = "" then nn else p

/-- Model of `CategoryStore.add` (main.py lines 108-125). Returns the outcome and
the resulting category list (unchanged on error). -/
def catAdd (cats : List Category) (name : String) (path : Option String) :
    Except CatErr Category × List Category :=
  match normalize_category (some name) with
  | none => (.error .invalidName, cats)
  | some nn =>
    match normalize_category (some (addPathArg nn path)) with
    | none => (.error .invalidPath, cats)
    | some np =>
      if (get_by_name cats nn).isSome then (.error .duplicateName, cats)
      else if (get_by_path cats (some np)).isSome then (.error .duplicatePath, cats)
      else (.ok ⟨nn, np⟩, cats ++ [⟨nn, np⟩])

/-- Remove the first category with the given (already normalized) name,
as the enumerate-and-pop loop of `CategoryStore.delete` does. -/
def removeFirstByName : List Category → String → Option (Category × List Category)
  | [], _ => none
  | c :: rest, m =>
    if c.name == m then some (c, rest)
    else
      match removeFirstByName rest m with
      | none => none
      | some (r, rest') => some (r, c :: rest')

/-- Model of `CategoryStore.delete` (main.py lines 127-137). A name that
normalizes to empty raises `KeyError("Category not found")`. -/
def catDelete (cats : List Category) (name : String) :
    Except CatErr Category × List Category :=
  match normalize_category (some name) with
  | none => (.error .notFound, cats)
  | some m =>
    match removeFirstByName cats m with
    | none => (.error .notFound, cats)
    | some (c, rest) => (.ok c, rest)

/-- Split the list around the first category with the given name,
locating the record that `CategoryStore.update` mutates in place. -/
def splitFirstByName : List Category → String → Option (List Category × Category × List Category)
  | [], _ => none
  | c :: rest, m =>
    if c.name == m then some ([], c, rest)
    else
      match splitFirstByName rest m with
      | none => none
      | some (pre, r, post) => some (c :: pre, r, post)

/-- The collision loop of `CategoryStore.update` (main.py lines
154-160) over the records other than the one being updated, in order:
a name match raises DuplicateName, then a path match DuplicatePath. -/
def firstCollision : List Category → String → String → Option CatErr
  | [], _, _ => none
  | c :: rest, cn, cp =>
    if c.name == cn then some .duplicateName
    else if c.path == cp then some .duplicatePath
    else firstCollision rest cn cp

/-- Model of `CategoryStore.update` (main.py lines 139-165). -/
def catUpdate (cats : List Category) (name : String)
    (new_name new_path : Option String) : Except CatErr Category × List Category :=
  match normalize_category (some name) with
  | none => (.error .notFound, cats)
  | some cur =>
    match normalize_category (some cur) with
    | none => (.error .notFound, cats)
    | some m =>
      match splitFirstByName cats m with
      | none => (.error .notFound, cats)
      | some (pre, cat, post) =>
        let candidate_name := match new_name with
          | some v => normalize_category (some v)
          | none => some cat.name
        let candidate_path := match new_path with
          | some v => normalize_category (some v)
          | none => some cat.path
        match candidate_name, candidate_path with
        | some cn, some cp =>
          match firstCollision (pre ++ post) cn cp with
          | some e => (.error e, cats)
          | none => (.ok ⟨cn, cp⟩, pre ++ [(⟨cn, cp⟩ : Category)] ++ post)
        | _, _ => (.error .invalidNameOrPath, cats)

/-- States of the category store reachable from the empty store through
the three mutating operations. -/
inductive CatReachable : List Category → Prop
  | empty : CatReachable []
  | add (s : List Category) (n : String) (p : Option String) :
      CatReachable s → CatReachable (catAdd s n p).2
  | del (s : List Category) (n : String) :
      CatReachable s → CatReachable (catDelete s n).2
  | upd (s : List Category) (n : String) (nn np : Option String) :
      CatReachable s → CatReachable (catUpdate s n nn np).2

/-- The uniqueness invariant: stored names are pairwise distinct and
stored paths are pairwise distinct. -/
def StoreInv (cats : List Category) : Prop :=
  (cats.map Category.name).Nodup ∧ (cats.map Category.path).Nodup

theorem fresh_name_of_no_get_by_name {s : List Category} {nn : String}
    (hnn : normalize_category (some nn) = some nn)
    (h : ¬ (get_by_name s nn).isSome = true) : ∀ c ∈ s, c.name ≠ nn := by
  intro c hc
  unfold get_by_name at h
  rw [hnn] at h
  rw [Option.not_isSome_iff_eq_none, List.find?_eq_none] at h
  simpa using h c hc

theorem fresh_path_of_no_get_by_path {s : List Category} {np : String}
    (hnp : normalize_category (some np) = some np)
    (h : ¬ (get_by_path s (some np)).isSome = true) : ∀ c ∈ s, c.path ≠ np := by
  intro c hc
  have hg : get_by_path s (some np) =
      s.find? (fun c => (some c.path : Option String) == normalize_category (some np)) := rfl
  rw [hg, hnp, Option.not_isSome_iff_eq_none, List.find?_eq_none] at h
  simpa using h c hc

theorem store_inv_append_fresh {s : List Category} {nn np : String}
    (h : StoreInv s) (hfn : ∀ c ∈ s, c.name ≠ nn) (hfp : ∀ c ∈ s, c.path ≠ np) :
    StoreInv (s ++ [(⟨nn, np⟩ : Category)]) := by
  constructor
  · rw [List.map_append]
    refine List.nodup_append.mpr ⟨h.1, List.nodup_singleton _, ?_⟩
    intro a ha hb
    rcases List.mem_map.mp ha with ⟨c, hc, rfl⟩
    rcases List.mem_singleton.mp hb with rfl
    exact hfn c hc rfl
  · rw [List.map_append]
    refine List.nodup_append.mpr ⟨h.2, List.nodup_singleton _, ?_⟩
    intro a ha hb
    rcases List.mem_map.mp ha with ⟨c, hc, rfl⟩
    rcases List.mem_singleton.mp hb with rfl
    exact hfp c hc rfl

theorem catAdd_preserves_inv (s : List Category) (n : String) (p : Option String)
    (h : StoreInv s) : StoreInv (catAdd s n p).2 := by
  rcases hn : normalize_category (some n) with _ | nn
  · simp only [catAdd, hn]; exact h
  rcases hp : normalize_category (some (addPathArg nn p)) with _ | np
  · simp only [catAdd, hn, hp]; exact h
  cases h1 : (get_by_name s nn).isSome with
  | true => simp only [catAdd, hn, hp, h1, if_true]; exact h
  | false =>
    cases h2 : (get_by_path s (some np)).isSome with
    | true => simp [catAdd, hn, hp, h1, h2]; exact h
    | false =>
      have hfn := fresh_name_of_no_get_by_name (normalize_of_normalize hn)
        (by rw [h1]; exact Bool.false_ne_true)
      have hfp := fresh_path_of_no_get_by_path (normalize_of_normalize hp)
        (by rw [h2]; exact Bool.false_ne_true)
      have hres : (catAdd s n p).2 = s ++ [(⟨nn, np⟩ : Category)] := by
        simp [catAdd, hn, hp, h1, h2]
      rw [hres]
      exact store_inv_append_fresh h hfn hfp

theorem removeFirst_sublist {s : List Category} {m : String} {c : Category}
    {rest : List Category} (h : removeFirstByName s m = some (c, rest)) :
    rest.Sublist s := by
  induction s generalizing c rest with
  | nil => simp [removeFirstByName] at h
  | cons a t ih =>
    unfold removeFirstByName at h
    by_cases ha : a.name == m
    · rw [if_pos ha] at h
      cases h
      exact List.sublist_cons_self a t
    · rw [if_neg ha] at h
      cases hrec : removeFirstByName t m with
      | none => rw [hrec] at h; cases h
      | some pr =>
        rcases pr with ⟨r, rest'⟩
        rw [hrec] at h
        cases h
        exact List.Sublist.cons₂ a (ih hrec)

theorem catDelete_preserves_inv (s : List Category) (n : String)
    (h : StoreInv s) : StoreInv (catDelete s n).2 := by
  rcases hn : normalize_category (some n) with _ | m
  · simp only [catDelete, hn]; exact h
  rcases hr : removeFirstByName s m with _ | ⟨c, rest⟩
  · simp only [catDelete, hn, hr]; exact h
  have hres : (catDelete s n).2 = rest := by simp [catDelete, hn, hr]
  rw [hres]
  have hsub := removeFirst_sublist hr
  exact ⟨h.1.sublist (hsub.map _), h.2.sublist (hsub.map _)⟩

theorem splitFirst_eq {s : List Category} {m : String} {pre post : List Category}
    {cat : Category} (h : splitFirstByName s m = some (pre, cat, post)) :
    s = pre ++ cat :: post := by
  induction s generalizing pre post cat with
  | nil => simp [splitFirstByName] at h
  | cons a t ih =>
    unfold splitFirstByName at h
    by_cases ha : a.name == m
    · rw [if_pos ha] at h
      cases h
      rfl
    · rw [if_neg ha] at h
      cases hrec : splitFirstByName t m with
      | none => rw [hrec] at h; cases h
      | some pr =>
        rcases pr with ⟨pre', r, post'⟩
        rw [hrec] at h
        cases h
        simpa using ih hrec

theorem firstCollision_none {l : List Category} {cn cp : String}
    (h : firstCollision l cn cp = none) :
    ∀ c ∈ l, c.name ≠ cn ∧ c.path ≠ cp := by
  induction l with
  | nil => intro c hc; cases hc
  | cons a t ih =>
    unfold firstCollision at h
    by_cases h1 : a.name == cn
    · rw [if_pos h1] at h; cases h
    · rw [if_neg h1] at h
      by_cases h2 : a.path == cp
      · rw [if_pos h2] at h; cases h
      · rw [if_neg h2] at h
        intro c hc
        rcases List.mem_cons.mp hc with rfl | hct
        · exact ⟨by simpa using h1, by simpa using h2⟩
        · exact ih h c hct

theorem store_inv_replace_middle {pre post : List Category} {cat : Category}
    {cn cp : String} (h : StoreInv (pre ++ cat :: post))
    (hfresh : ∀ c ∈ pre ++ post, c.name ≠ cn ∧ c.path ≠ cp) :
    StoreInv (pre ++ (⟨cn, cp⟩ : Category) :: post) := by
  rcases h with ⟨hname, hpath⟩
  constructor
  · simp only [List.map_append, List.map_cons, List.nodup_middle,
      List.nodup_cons] at hname ⊢
    refine ⟨?_, hname.2⟩
    intro hmem
    rw [← List.map_append] at hmem
    rcases List.mem_map.mp hmem with ⟨c, hc, hceq⟩
    exact (hfresh c hc).1 hceq
  · simp only [List.map_append, List.map_cons, List.nodup_middle,
      List.nodup_cons] at hpath ⊢
    refine ⟨?_, hpath.2⟩
    intro hmem
    rw [← List.map_append] at hmem
    rcases List.mem_map.mp hmem with ⟨c, hc, hceq⟩
    exact (hfresh c hc).2 hceq

theorem catUpdate_preserves_inv (s : List Category) (n : String)
    (nn np : Option String) (h : StoreInv s) : StoreInv (catUpdate s n nn np).2 := by
  rcases h1 : normalize_category (some n) with _ | cur
  · simp only [catUpdate, h1]; exact h
  rcases h2 : normalize_category (some cur) with _ | m
  · simp only [catUpdate, h1, h2]; exact h
  rcases h3 : splitFirstByName s m with _ | ⟨pre, cat, post⟩
  · simp only [catUpdate, h1, h2, h3]; exact h
  have hs := splitFirst_eq h3
  rcases hcn : (match nn with
      | some v => normalize_category (some v)
      | none => some cat.name) with _ | cn
  · have hres : (catUpdate s n nn np).2 = s := by
      simp [catUpdate, h1, h2, h3, hcn]
    rw [hres]; exact h
  rcases hcp : (match np with
      | some v => normalize_category (some v)
      | none => some cat.path) with _ | cp
  · have hres : (catUpdate s n nn np).2 = s := by
      simp [catUpdate, h1, h2, h3, hcn, hcp]
    rw [hres]; exact h
  rcases hcol : firstCollision (pre ++ post) cn cp with _ | e
  · have hres : (catUpdate s n nn np).2 = pre ++ (⟨cn, cp⟩ : Category) :: post := by
      simp [catUpdate, h1, h2, h3, hcn, hcp, hcol]
    rw [hres]
    exact store_inv_replace_middle (hs ▸ h) (firstCollision_none hcol)
  · have hres : (catUpdate s n nn np).2 = s := by
      simp [catUpdate, h1, h2, h3, hcn, hcp, hcol]
    rw [hres]; exact h

theorem reachable_inv (s : List Category) (h : CatReachable s) : StoreInv s := by
  induction h with
  | empty => exact ⟨List.nodup_nil, List.nodup_nil⟩
  | add s n p _ ih => exact catAdd_preserves_inv s n p ih
  | del s n _ ih => exact catDelete_preserves_inv s n ih
  | upd s n nn np _ ih => exact catUpdate_preserves_inv s n nn np ih

theorem catAdd_success {s : List Category} {n : String} {p : Option String}
    {nn np : String} (hn : normalize_category (some n) = some nn)
    (hp : normalize_category (some (addPathArg nn p)) = some np)
    (hfn : ∀ c ∈ s, c.name ≠ nn) (hfp : ∀ c ∈ s, c.path ≠ np) :
    catAdd s n p = (.ok ⟨nn, np⟩, s ++ [(⟨nn, np⟩ : Category)]) := by
  have hgn : get_by_name s nn = none := by
    have : get_by_name s nn =
        s.find? (fun c => c.name == nn) := by
      simp [get_by_name, normalize_of_normalize hn]
    rw [this, List.find?_eq_none]
    intro c hc
    simpa using hfn c hc
  have hgp : get_by_path s (some np) = none := by
    have : get_by_path s (some np) =
        s.find? (fun c => (some c.path : Option String) == some np) := by
      simp [get_by_path, normalize_of_normalize hp]
    rw [this, List.find?_eq_none]
    intro c hc
    simpa using hfp c hc
  simp [catAdd, hn, hp, hgn, hgp]

theorem catAdd_dup_name {s : List Category} {n : String} {p : Option String}
    {nn np : String} (hn : normalize_category (some n) = some nn)
    (hp : normalize_category (some (addPathArg nn p)) = some np)
    (hdup : (get_by_name s nn).isSome = true) :
    catAdd s n p = (.error .duplicateName, s) := by
  simp [catAdd, hn, hp, hdup]

theorem catAdd_dup_path {s : List Category} {n : String} {p : Option String}
    {nn np : String} (hn : normalize_category (some n) = some nn)
    (hp : normalize_category (some (addPathArg nn p)) = some np)
    (hnodup : (get_by_name s nn).isSome = false)
    (hdup : (get_by_path s (some np)).isSome = true) :
    catAdd s n p = (.error .duplicatePath, s) := by
  simp [catAdd, hn, hp, hnodup, hdup]

/-- C1: every reachable CategoryStore state has pairwise-distinct names
and pairwise-distinct paths (all three operations preserve this), and
for valid categories A, B with distinct normalized names and paths both
adds succeed from the empty store, after which a third add colliding on
the normalized name or path of A or B fails with the corresponding
duplicate error, leaving the store unchanged. -/
theorem C1_uniqueness_invariant :
    (∀ s, CatReachable s → StoreInv s) ∧
    (∀ na pa nb pb na' pa' nb' pb',
      normalize_category (some na) = some na' →
      normalize_category (some (addPathArg na' pa)) = some pa' →
      normalize_category (some nb) = some nb' →
      normalize_category (some (addPathArg nb' pb)) = some pb' →
      na' ≠ nb' → pa' ≠ pb' →
      catAdd [] na pa = (.ok ⟨na', pa'⟩, [⟨na', pa'⟩]) ∧
      catAdd [⟨na', pa'⟩] nb pb =
        (.ok ⟨nb', pb'⟩, [⟨na', pa'⟩, ⟨nb', pb'⟩]) ∧
      (∀ nc pc nc' pc',
        normalize_category (some nc) = some nc' →
        normalize_category (some (addPathArg nc' pc)) = some pc' →
        ((nc' = na' ∨ nc' = nb') →
          catAdd [⟨na', pa'⟩, ⟨nb', pb'⟩] nc pc =
            (.error .duplicateName, [⟨na', pa'⟩, ⟨nb', pb'⟩])) ∧
        (nc' ≠ na' → nc' ≠ nb' → (pc' = pa' ∨ pc' = pb') →
          catAdd [⟨na', pa'⟩, ⟨nb', pb'⟩] nc pc =
            (.error .duplicatePath, [⟨na', pa'⟩, ⟨nb', pb'⟩])))) := by
  constructor
  · exact reachable_inv
  intro na pa nb pb na' pa' nb' pb' hA hA2 hB hB2 hnab hpab
  refine ⟨?_, ?_, ?_⟩
  · exact catAdd_success hA hA2 (by intro c hc; cases hc) (by intro c hc; cases hc)
  · refine catAdd_success hB hB2 ?_ ?_
    · intro c hc
      rcases List.mem_singleton.mp hc with rfl
      exact fun hne => hnab (by simpa using hne)
    · intro c hc
      rcases List.mem_singleton.mp hc with rfl
      exact fun hne => hpab (by simpa using hne)
  · intro nc pc nc' pc' hC hC2
    constructor
    · intro hdup
      refine catAdd_dup_name hC hC2 ?_
      rcases hdup with rfl | rfl
      · simp [get_by_name, normalize_of_normalize hC]
      · simp [get_by_name, normalize_of_normalize hC]
    · intro hd1 hd2 hdup
      refine catAdd_dup_path hC hC2 ?_ ?_
      · simp only [get_by_name, normalize_of_normalize hC]
        simp [List.find?_cons, hd1, Ne.symm hd1, hd2, Ne.symm hd2]
      · rcases hdup with rfl | rfl
        · simp [get_by_path, normalize_of_normalize hC2]
        · simp [get_by_path, normalize_of_normalize hC2]

/-- Witness for C1 at concrete categories: A = ("Alpha", default path),
B = ("Beta b", "bb"), third add "Alpha!" collides on name with A. -/
theorem C1_witness :
    catAdd [] "Alpha" none = (.ok ⟨"Alpha", "Alpha"⟩, [⟨"Alpha", "Alpha"⟩]) ∧
    catAdd [⟨"Alpha", "Alpha"⟩] "Beta b" (some "bb") =
      (.ok ⟨"Beta_b", "bb"⟩, [⟨"Alpha", "Alpha"⟩, ⟨"Beta_b", "bb"⟩]) ∧
    catAdd [⟨"Alpha", "Alpha"⟩, ⟨"Beta_b", "bb"⟩] "Alpha!" (some "zz") =
      (.error .duplicateName, [⟨"Alpha", "Alpha"⟩, ⟨"Beta_b", "bb"⟩]) ∧
    StoreInv [⟨"Alpha", "Alpha"⟩, ⟨"Beta_b", "bb"⟩] := by
  have h := C1_uniqueness_invariant.2 "Alpha" none "Beta b" (some "bb")
    "Alpha" "Alpha" "Beta_b" "bb" (by decide) (by decide) (by decide) (by decide)
    (by decide) (by decide)
  refine ⟨h.1, h.2.1, ?_, ?_⟩
  · exact ((h.2.2 "Alpha!" (some "zz") "Alpha" "zz" (by decide) (by decide)).1
      (Or.inl rfl))
  · have hr : CatReachable [⟨"Alpha", "Alpha"⟩, ⟨"Beta_b", "bb"⟩] := by
      have r0 := CatReachable.empty
      have r1 := CatReachable.add [] "Alpha" none r0
      rw [h.1] at r1
      have r2 := CatReachable.add [⟨"Alpha", "Alpha"⟩] "Beta b" (some "bb") r1
      rw [h.2.1] at r2
      exact r2
    exact C1_uniqueness_invariant.1 _ hr

theorem splitFirst_none_of_fresh {s : List Category} {m : String}
    (h : ∀ c ∈ s, c.name ≠ m) : splitFirstByName s m = none := by
  induction s with
  | nil => rfl
  | cons a t ih =>
    unfold splitFirstByName
    rw [if_neg (by simpa using h a (List.mem_cons_self a t))]
    rw [ih (fun c hc => h c (List.mem_cons_of_mem a hc))]

theorem firstCollision_none_of_fresh {l : List Category} {cn cp : String}
    (h : ∀ c ∈ l, c.name ≠ cn ∧ c.path ≠ cp) : firstCollision l cn cp = none := by
  induction l with
  | nil => rfl
  | cons a t ih =>
    unfold firstCollision
    rw [if_neg (by simpa using (h a (List.mem_cons_self a t)).1)]
    rw [if_neg (by simpa using (h a (List.mem_cons_self a t)).2)]
    exact ih (fun c hc => h c (List.mem_cons_of_mem a hc))

theorem splitFirst_mem_nodup {s : List Category} {cat : Category}
    (hnd : (s.map Category.name).Nodup) (hmem : cat ∈ s) :
    ∃ pre post, splitFirstByName s cat.name = some (pre, cat, post) ∧
      s = pre ++ cat :: post := by
  induction s with
  | nil => cases hmem
  | cons a t ih =>
    rcases List.mem_cons.mp hmem with rfl | hmt
    · refine ⟨[], t, ?_, rfl⟩
      unfold splitFirstByName
      rw [if_pos (by simp)]
    · have hne : a.name ≠ cat.name := by
        intro he
        have : cat.name ∈ t.map Category.name := List.mem_map_of_mem _ hmt
        rw [List.map_cons, List.nodup_cons] at hnd
        exact hnd.1 (he ▸ this)
      obtain ⟨pre, post, hsp, hse⟩ := ih (by
        rw [List.map_cons, List.nodup_cons] at hnd
        exact hnd.2) hmt
      refine ⟨a :: pre, post, ?_, by rw [hse]; rfl⟩
      unfold splitFirstByName
      rw [if_neg (by simpa using hne), hsp]

/-- Counterexample to C3: deleting with a name that normalizes to empty
fails with NotFound (a KeyError), not with InvalidName. -/
theorem C3_counterexample :
    catDelete [] "!!!" = (.error .notFound, []) ∧
    (CatErr.notFound ≠ CatErr.invalidName) := by
  constructor
  · rfl
  · decide

/-- C3 amended: `add` fails with InvalidName (resp. InvalidPath) when
the supplied name (resp. path) normalizes to empty, and `update` fails
with the invalid-name-or-path error when a supplied replacement value
normalizes to empty and the target exists; but `delete` called with a
name that normalizes to empty fails with NotFound, as does `update`
whose target name normalizes to empty. -/
theorem C3_amended_empty_normalization :
    (∀ s n p, normalize_category (some n) = none →
      catAdd s n p = (.error .invalidName, s)) ∧
    (∀ s n p nn, normalize_category (some n) = some nn →
      normalize_category (some (addPathArg nn p)) = none →
      catAdd s n p = (.error .invalidPath, s)) ∧
    (∀ s n, normalize_category (some n) = none →
      catDelete s n = (.error .notFound, s)) ∧
    (∀ s n nn np, normalize_category (some n) = none →
      catUpdate s n nn np = (.error .notFound, s)) ∧
    (∀ s n nn np cur pre cat post,
      normalize_category (some n) = some cur →
      splitFirstByName s cur = some (pre, cat, post) →
      ((∃ v, nn = some v ∧ normalize_category (some v) = none) ∨
       (∃ v, np = some v ∧ normalize_category (some v) = none)) →
      catUpdate s n nn np = (.error .invalidNameOrPath, s)) := by
  refine ⟨?_, ?_, ?_, ?_, ?_⟩
  · intro s n p h
    simp [catAdd, h]
  · intro s n p nn h1 h2
    simp [catAdd, h1, h2]
  · intro s n h
    simp [catDelete, h]
  · intro s n nn np h
    simp [catUpdate, h]
  · intro s n nn np cur pre cat post h1 hsplit hbad
    have h2 := normalize_of_normalize h1
    rcases hbad with ⟨v, rfl, hv⟩ | ⟨v, rfl, hv⟩
    · simp [catUpdate, h1, h2, hsplit, hv]
    · rcases hnn : (match nn with
          | some w => normalize_category (some w)
          | none => some cat.name) with _ | cn
      · simp [catUpdate, h1, h2, hsplit, hv, hnn]
      · simp [catUpdate, h1, h2, hsplit, hv, hnn]

/-- Witness for the amended C3 at concrete inputs. -/
theorem C3_amended_witness :
    catAdd [] "!!!" (some "ok") = (.error .invalidName, []) ∧
    catAdd [] "ok" (some "!!!") = (.error .invalidPath, []) ∧
    catDelete [⟨"A", "a"⟩] "!!!" = (.error .notFound, [⟨"A", "a"⟩]) ∧
    catUpdate [⟨"A", "a"⟩] "!!!" (some "B") none =
      (.error .notFound, [⟨"A", "a"⟩]) ∧
    catUpdate [⟨"A", "a"⟩] "A" (some "!!!") none =
      (.error .invalidNameOrPath, [⟨"A", "a"⟩]) := by
  refine ⟨?_, ?_, ?_, ?_, ?_⟩
  · exact C3_amended_empty_normalization.1 [] "!!!" (some "ok") (by decide)
  · exact C3_amended_empty_normalization.2.1 [] "ok" (some "!!!") "ok"
      (by decide) (by decide)
  · exact C3_amended_empty_normalization.2.2.1 [⟨"A", "a"⟩] "!!!" (by decide)
  · exact C3_amended_empty_normalization.2.2.2.1 [⟨"A", "a"⟩] "!!!"
      (some "B") none (by decide)
  · exact C3_amended_empty_normalization.2.2.2.2 [⟨"A", "a"⟩] "A"
      (some "!!!") none "A" [] ⟨"A", "a"⟩ [] (by decide) (by decide)
      (Or.inl ⟨"!!!", rfl, by decide⟩)

/-- C8: `update` fails with NotFound when no stored category carries the
normalized target name; fails with the invalid-replacement error when a
supplied new name or path normalizes to empty (target existing); when
the target exists, supplied values normalize, and no *other* record
carries the candidate name or path, it succeeds, replacing the record in
place (unsupplied fields defaulting to the current values); and in
particular renaming a category to its own current name and path
succeeds and leaves the store equal. -/
theorem C8_update_semantics :
    (∀ s n nn np,
      (∀ c ∈ s, (some c.name : Option String) ≠ normalize_category (some n)) →
      catUpdate s n nn np = (.error .notFound, s)) ∧
    (∀ s n nn np cur pre cat post,
      normalize_category (some n) = some cur →
      splitFirstByName s cur = some (pre, cat, post) →
      ((∃ v, nn = some v ∧ normalize_category (some v) = none) ∨
       (∃ v, np = some v ∧ normalize_category (some v) = none)) →
      catUpdate s n nn np = (.error .invalidNameOrPath, s)) ∧
    (∀ s n nn np cur pre cat post cn cp,
      normalize_category (some n) = some cur →
      splitFirstByName s cur = some (pre, cat, post) →
      (match nn with
        | some v => normalize_category (some v)
        | none => some cat.name) = some cn →
      (match np with
        | some v => normalize_category (some v)
        | none => some cat.path) = some cp →
      (∀ c ∈ pre ++ post, c.name ≠ cn ∧ c.path ≠ cp) →
      catUpdate s n nn np = (.ok ⟨cn, cp⟩, pre ++ (⟨cn, cp⟩ : Category) :: post)) ∧
    (∀ s (cat : Category), StoreInv s → cat ∈ s →
      normalize_category (some cat.name) = some cat.name →
      normalize_category (some cat.path) = some cat.path →
      catUpdate s cat.name (some cat.name) (some cat.path) = (.ok cat, s)) := by
  refine ⟨?_, ?_, ?_, ?_⟩
  · intro s n nn np hfresh
    rcases h1 : normalize_category (some n) with _ | cur
    · simp [catUpdate, h1]
    · have h2 := normalize_of_normalize h1
      have hsplit : splitFirstByName s cur = none := splitFirst_none_of_fresh
        (fun c hc he => hfresh c hc (by rw [h1, he]))
      simp [catUpdate, h1, h2, hsplit]
  · intro s n nn np cur pre cat post h1 hsplit hbad
    have h2 := normalize_of_normalize h1
    rcases hbad with ⟨v, rfl, hv⟩ | ⟨v, rfl, hv⟩
    · simp [catUpdate, h1, h2, hsplit, hv]
    · rcases hnn : (match nn with
          | some w => normalize_category (some w)
          | none => some cat.name) with _ | cn
      · simp [catUpdate, h1, h2, hsplit, hv, hnn]
      · simp [catUpdate, h1, h2, hsplit, hv, hnn]
  · intro s n nn np cur pre cat post cn cp h1 hsplit hcn hcp hfresh
    have h2 := normalize_of_normalize h1
    simp [catUpdate, h1, h2, hsplit, hcn, hcp, firstCollision_none_of_fresh hfresh]
  · intro s cat hInv hmem hnm hpt
    obtain ⟨pre, post, hsplit, hs⟩ := splitFirst_mem_nodup hInv.1 hmem
    have hfresh : ∀ c ∈ pre ++ post, c.name ≠ cat.name ∧ c.path ≠ cat.path := by
      intro c hc
      have hn := hInv.1
      have hp := hInv.2
      rw [hs, List.map_append, List.map_cons, List.nodup_middle,
        List.nodup_cons, ← List.map_append] at hn hp
      exact ⟨fun he => hn.1 (he ▸ List.mem_map_of_mem _ hc),
        fun he => hp.1 (he ▸ List.mem_map_of_mem _ hc)⟩
    have hcol := firstCollision_none_of_fresh hfresh
    have heta : (⟨cat.name, cat.path⟩ : Category) = cat := rfl
    simp only [catUpdate, hnm, hpt, hsplit, hcol, heta]
    simp [hs]

/-- Witness for C8 at concrete inputs: a missing target, an invalid
replacement, a successful rename with a defaulted path, and a rename of
a category to its own name and path. -/
theorem C8_witness :
    catUpdate [⟨"A", "a"⟩] "Z" (some "B") none =
      (.error .notFound, [⟨"A", "a"⟩]) ∧
    catUpdate [⟨"A", "a"⟩] "A" none (some "??") =
      (.error .invalidNameOrPath, [⟨"A", "a"⟩]) ∧
    catUpdate [⟨"A", "a"⟩, ⟨"B", "b"⟩] "A" (some "C c") none =
      (.ok ⟨"C_c", "a"⟩, [⟨"C_c", "a"⟩, ⟨"B", "b"⟩]) ∧
    catUpdate [⟨"A", "a"⟩, ⟨"B", "b"⟩] "A" (some "A") (some "a") =
      (.ok ⟨"A", "a"⟩, [⟨"A", "a"⟩, ⟨"B", "b"⟩]) := by
  refine ⟨?_, ?_, ?_, ?_⟩
  · exact C8_update_semantics.1 [⟨"A", "a"⟩] "Z" (some "B") none (by decide)
  · exact C8_update_semantics.2.1 [⟨"A", "a"⟩] "A" none (some "??") "A"
      [] ⟨"A", "a"⟩ [] (by decide) (by decide) (Or.inr ⟨"??", rfl, by decide⟩)
  · exact C8_update_semantics.2.2.1 [⟨"A", "a"⟩, ⟨"B", "b"⟩] "A" (some "C c")
      none "A" [] ⟨"A", "a"⟩ [⟨"B", "b"⟩] "C_c" "a" (by decide) (by decide)
      (by decide) (by decide) (by decide)
  · exact C8_update_semantics.2.2.2 [⟨"A", "a"⟩, ⟨"B", "b"⟩] ⟨"A", "a"⟩
      ⟨by decide, by decide⟩ (by decide) (by decide) (by decide)

/-!
Path resolution. A POSIX absolute path is a list of segments below the
filesystem root. The model has no symlinks, so `Path.resolve()` is
lexical normalization: empty and "." segments vanish, ".." removes the
previous segment and at the filesystem root stays put (as `/..` does on
POSIX).
-/

/-- One pass of lexical path normalization; `acc` holds the segments
produced so far, most recent first. -/
def normAbsGo : List String → List String → List String
  | acc, [] => acc.reverse
  | acc, seg :: rest =>
    if seg = "" ∨ seg = "." then normAbsGo acc rest
    else if seg = ".." then normAbsGo acc.tail rest
    else normAbsGo (seg :: acc) rest

def normAbs (segs : List String) : List String := normAbsGo [] segs

/-- Split a string at every slash (Python `str.split("/")`): the empty
string yields one empty part, and consecutive slashes yield empty
parts. -/
def splitSlashGo : List Char → List Char → List String
  | acc, [] => [String.mk acc.reverse]
  | acc, c :: rest =>
    if c = '/' then String.mk acc.reverse :: splitSlashGo [] rest
    else splitSlashGo (c :: acc) rest

def splitPath (s : String) : List String := splitSlashGo [] s.toList

/-- Boolean test that `s` starts with `pre` (String.startsWith). -/
def strStartsWith (s pre : String) : Bool :=
  s.toList.take pre.toList.length == pre.toList

/-- Model of `(settings.media_dir / raw).resolve()` where the media root is the
normalized absolute segment list `root`: an absolute `raw` replaces the
root (Python `Path.__truediv__` semantics), otherwise `raw` is joined
below it; the result is normalized. -/
def resolveUnderRoot (root : List String) (raw : String) : List String :=
  if strStartsWith raw "/" then normAbs (splitPath raw)
  else normAbs (root ++ splitPath raw)

/-- Check that `target.relative_to(media_dir)` succeeds; it does exactly when the root is a
leading run of the target's segments. -/
def segsUnderRoot (root p : List String) : Bool :=
  p.take root.length == root

/-- Lowercase a string (Python `str.lower`, ASCII range). -/
def pyLower (s : String) : String := String.mk (s.toList.map Char.toLower)

/-- Model of `pathlib.PurePosixPath(s).name`: parse drops empty and "." parts;
the name is the last remaining part, or empty. -/
def pyNameStr (s : String) : String :=
  match ((splitPath s).filter (fun seg => seg != "" && seg != ".")).getLast? with
  | none => ""
  | some n => n

/-- The `pathlib` stem/suffix of a final path component: the suffix starts
at the last dot, provided that dot is neither the first nor the last
character; otherwise the suffix is empty and the stem is the whole
name. -/
def pyStemSuffix (name : String) : String × String :=
  let l := name.toList
  let after := (l.reverse.takeWhile (fun c => c != '.')).length
  let i := l.length - after - 1
  if after < l.length ∧ 0 < i ∧ i < l.length - 1 then
    (String.mk (l.take i), String.mk (l.drop i))
  else (name, "")

/-- The default `ALLOWED_EXTENSIONS` of config.py line 19 (environment
overrides are part of the excluded configuration loading). -/
def allowedExtensions : List String :=
  [".jpg", ".jpeg", ".png", ".gif", ".webp", ".mp4", ".mov", ".mkv", ".avi"]

/-- Model of `is_allowed_file` (main.py lines 51-52):
`Path(filename.lower()).suffix in settings.allowed_extensions`. -/
def is_allowed_file (filename : String) : Bool :=
  allowedExtensions.contains (pyStemSuffix (pyNameStr (pyLower filename))).2

/-- Model of `_validate_media_path` (main.py lines 460-474): reject the empty
path, resolve below the media root, reject escapes, reject disallowed
extensions; errors carry the HTTP status and detail message. -/
def validate_media_path (root : List String) (relative_path : String) :
    Except (Nat × String) (List String) :=
  if relative_path = "" then .error (400, "Path is required")
  else
    let target := resolveUnderRoot root relative_path
    if segsUnderRoot root target then
      if is_allowed_file (target.getLastD "") then .ok target
      else .error (400, "File type not allowed")
    else .error (400, "Path must be inside media directory")

/-- A link record (main.py lines 171-178). -/
structure Link where
  id : String
  name : String
  url : String
  domain : String
  category : Option String := none
  category_path : Option String := none
  added : String
deriving DecidableEq, Repr

/-- Remove the first link with the given id, as the enumerate-and-pop
loop of `LinkStore.delete` (main.py lines 241-247) does. -/
def removeFirstById : List Link → String → Option (Link × List Link)
  | [], _ => none
  | l :: rest, i =>
    if l.id == i then some (l, rest)
    else
      match removeFirstById rest i with
      | none => none
      | some (r, rest') => some (r, l :: rest')

/-- Model of `_is_link_path` (main.py lines 477-478). -/
def is_link_path (p : String) : Bool := strStartsWith p "link:"

/-- Model of `link_path.split(":", 1)[-1]` for a string known to start with
"link:": everything after the first colon. -/
def linkIdOfPath (p : String) : String := String.mk (p.toList.drop 5)

/-- The state batch deletion acts on: the existing files (absolute
normalized segment lists) and the stored links. -/
structure MediaState where
  files : List (List String)
  links : List Link
deriving DecidableEq, Repr

/-- One per-item outcome dictionary of `delete_media_batch`. -/
structure ItemResult where
  path : String
  status : String
  message : String
  code : Nat
deriving DecidableEq, Repr

/-- Processing of a single entry of the batch payload (main.py lines
518-583): link references are deleted from the link store (a missing id
gives the stringified KeyError and 404); other entries are validated,
checked for existence (404 if absent) and unlinked. The model's unlink
cannot fail, so the source's 500 branch for filesystem errors is not
reachable here. -/
def deleteOneItem (root : List String) (st : MediaState) (raw : String) :
    MediaState × ItemResult :=
  if is_link_path raw then
    match removeFirstById st.links (linkIdOfPath raw) with
    | some (_, rest) =>
      ({ st with links := rest }, ⟨raw, "success", "Deleted", 200⟩)
    | none =>
      (st, ⟨raw, "error", "'Link not found'", 404⟩)
  else
    match validate_media_path root raw with
    | .error (code, msg) => (st, ⟨raw, "error", msg, code⟩)
    | .ok target =>
      if st.files.contains target then
        ({ st with files := st.files.erase target },
          ⟨String.intercalate "/" (target.drop root.length), "success", "Deleted", 200⟩)
      else (st, ⟨raw, "error", "Media not found", 404⟩)

/-- The batch loop, threading the state left to right. -/
def runBatch (root : List String) : MediaState → List String → MediaState × List ItemResult
  | st, [] => (st, [])
  | st, raw :: rest =>
    let step := deleteOneItem root st raw
    let tail := runBatch root step.1 rest
    (tail.1, step.2 :: tail.2)

/-- The aggregate response status of `delete_media_batch` (main.py lines
585-599): success and error presence decide 207/200; with no success,
the set of truthy per-item codes decides 404 (all 404), the minimum code
otherwise, or 400 when empty. -/
def aggregateStatus (results : List ItemResult) : Nat :=
  let hasSuccess := results.any (fun r => r.status == "success")
  let errors := results.filter (fun r => r.status == "error")
  if hasSuccess && !errors.isEmpty then 207
  else if hasSuccess then 200
  else
    let codes := (results.filter (fun r => r.code != 0)).map ItemResult.code
    match codes with
    | [] => 400
    | c :: cs => if (c :: cs).all (fun x => x == 404) then 404 else cs.foldl Nat.min c

/-- Model of `delete_media_batch` (main.py lines 507-601): an empty payload is a
400 error; otherwise every entry is processed independently and the
aggregate status is computed from the outcomes. -/
def delete_media_batch (root : List String) (st : MediaState) (payload : List String) :
    Except (Nat × String) (MediaState × List ItemResult × Nat) :=
  if payload.isEmpty then .error (400, "Provide at least one path to delete")
  else
    let run := runBatch root st payload
    .ok (run.1, run.2, aggregateStatus run.2)

/-- Every per-item outcome is a success with code 200 or an error with
code 400 or 404 (the source's 500 branch being unreachable here). -/
def WfResult (r : ItemResult) : Prop :=
  (r.status = "success" ∧ r.code = 200) ∨
  (r.status = "error" ∧ (r.code = 400 ∨ r.code = 404))

theorem validate_error_code {root : List String} {raw : String} {c : Nat}
    {m : String} (h : validate_media_path root raw = .error (c, m)) : c = 400 := by
  simp only [validate_media_path] at h
  split at h
  · cases h; rfl
  · split at h
    · split at h
      · cases h
      · cases h; rfl
    · cases h; rfl

theorem deleteOneItem_wf (root : List String) (st : MediaState) (raw : String) :
    WfResult (deleteOneItem root st raw).2 := by
  by_cases hl : is_link_path raw
  · rcases hr : removeFirstById st.links (linkIdOfPath raw) with _ | ⟨l, rest⟩
    · have he : (deleteOneItem root st raw).2 = ⟨raw, "error", "'Link not found'", 404⟩ := by
        simp [deleteOneItem, hl, hr]
      rw [he]; exact Or.inr ⟨rfl, Or.inr rfl⟩
    · have he : (deleteOneItem root st raw).2 = ⟨raw, "success", "Deleted", 200⟩ := by
        simp [deleteOneItem, hl, hr]
      rw [he]; exact Or.inl ⟨rfl, rfl⟩
  · rcases hv : validate_media_path root raw with cm | target
    · rcases cm with ⟨c, m⟩
      have he : (deleteOneItem root st raw).2 = ⟨raw, "error", m, c⟩ := by
        simp [deleteOneItem, hl, hv]
      rw [he]
      exact Or.inr ⟨rfl, Or.inl (validate_error_code hv)⟩
    · by_cases hc : target ∈ st.files
      · have he : (deleteOneItem root st raw).2 =
            ⟨String.intercalate "/" (target.drop root.length), "success", "Deleted", 200⟩ := by
          simp [deleteOneItem, hl, hv, hc]
        rw [he]; exact Or.inl ⟨rfl, rfl⟩
      · have he : (deleteOneItem root st raw).2 = ⟨raw, "error", "Media not found", 404⟩ := by
          simp [deleteOneItem, hl, hv, hc]
        rw [he]; exact Or.inr ⟨rfl, Or.inr rfl⟩

theorem runBatch_wf (root : List String) :
    ∀ (payload : List String) (st : MediaState),
      ∀ r ∈ (runBatch root st payload).2, WfResult r := by
  intro payload
  induction payload with
  | nil => intro st r hr; simp [runBatch] at hr
  | cons a rest ih =>
    intro st r hr
    simp only [runBatch] at hr
    rcases List.mem_cons.mp hr with rfl | h
    · exact deleteOneItem_wf root st a
    · exact ih _ r h

theorem runBatch_length (root : List String) :
    ∀ (payload : List String) (st : MediaState),
      (runBatch root st payload).2.length = payload.length := by
  intro payload
  induction payload with
  | nil => intro st; rfl
  | cons a rest ih => intro st; simp [runBatch, ih]

theorem foldl_min_le_init (cs : List Nat) (c : Nat) : cs.foldl Nat.min c ≤ c := by
  induction cs generalizing c with
  | nil => exact Nat.le_refl c
  | cons x xs ih =>
    exact Nat.le_trans (ih (Nat.min c x)) (Nat.min_le_left c x)

theorem foldl_min_le_mem (cs : List Nat) (c : Nat) :
    ∀ x ∈ cs, cs.foldl Nat.min c ≤ x := by
  induction cs generalizing c with
  | nil => intro x hx; cases hx
  | cons y ys ih =>
    intro x hx
    rcases List.mem_cons.mp hx with rfl | h
    · exact Nat.le_trans (foldl_min_le_init ys (Nat.min c x)) (Nat.min_le_right c x)
    · exact ih (Nat.min c y) x h

theorem foldl_min_mem (cs : List Nat) (c : Nat) :
    cs.foldl Nat.min c = c ∨ cs.foldl Nat.min c ∈ cs := by
  induction cs generalizing c with
  | nil => exact Or.inl rfl
  | cons x xs ih =>
    rcases ih (Nat.min c x) with h | h
    · rw [List.foldl_cons, h, show Nat.min c x = if c ≤ x then c else x from rfl]
      split
      · exact Or.inl rfl
      · exact Or.inr (List.mem_cons_self x xs)
    · exact Or.inr (List.mem_cons_of_mem x h)

theorem aggregate_all_success {results : List ItemResult} (hne : results ≠ [])
    (hall : ∀ r ∈ results, r.status = "success") : aggregateStatus results = 200 := by
  have h1 : results.any (fun r => r.status == "success") = true := by
    rcases results with _ | ⟨r, rs⟩
    · exact absurd rfl hne
    · simp [List.any_cons, hall r (List.mem_cons_self r rs)]
  have h2 : results.filter (fun r => r.status == "error") = [] := by
    rw [List.filter_eq_nil_iff]
    intro r hr
    simp [hall r hr]
  simp [aggregateStatus, h1, h2]

theorem aggregate_mixed {results : List ItemResult}
    (hs : ∃ r ∈ results, r.status = "success")
    (he : ∃ r ∈ results, r.status = "error") : aggregateStatus results = 207 := by
  obtain ⟨r, hr, hrs⟩ := hs
  obtain ⟨e, her, hes⟩ := he
  have h1 : results.any (fun r => r.status == "success") = true :=
    List.any_eq_true.mpr ⟨r, hr, by simp [hrs]⟩
  have h2 : (results.filter (fun r => r.status == "error")).isEmpty = false := by
    have hmem : e ∈ results.filter (fun r => r.status == "error") :=
      List.mem_filter.mpr ⟨her, by simp [hes]⟩
    rcases hfe : results.filter (fun r => r.status == "error") with _ | ⟨x, xs⟩
    · rw [hfe] at hmem; cases hmem
    · rw [hfe]; rfl
  simp [aggregateStatus, h1, h2]

theorem no_success_of_all_error {results : List ItemResult}
    (hall : ∀ r ∈ results, r.status = "error") :
    results.any (fun r => r.status == "success") = false := by
  rw [List.any_eq_false]
  intro r hr
  simp [hall r hr]

theorem codes_filter_eq_self {results : List ItemResult}
    (hwf : ∀ r ∈ results, WfResult r) :
    results.filter (fun r => r.code != 0) = results := by
  rw [List.filter_eq_self]
  intro r hr
  rcases hwf r hr with ⟨_, hc⟩ | ⟨_, hc | hc⟩ <;> simp [hc]

theorem aggregate_all_404 {results : List ItemResult} (hne : results ≠ [])
    (hwf : ∀ r ∈ results, WfResult r)
    (hall : ∀ r ∈ results, r.status = "error" ∧ r.code = 404) :
    aggregateStatus results = 404 := by
  have h1 := no_success_of_all_error (fun r hr => (hall r hr).1)
  have h2 := codes_filter_eq_self hwf
  rcases hres : results with _ | ⟨r, rs⟩
  · exact absurd hres hne
  subst hres
  have hcodes : ∀ x ∈ (r :: rs).map ItemResult.code, x == 404 := by
    intro x hx
    rcases List.mem_map.mp hx with ⟨y, hy, rfl⟩
    simp [(hall y hy).2]
  simp only [aggregateStatus, h1, h2, Bool.false_and, Bool.false_eq_true,
    if_false, List.map_cons]
  rw [if_pos (List.all_eq_true.mpr (by simpa using hcodes))]

theorem aggregate_min {results : List ItemResult}
    (hwf : ∀ r ∈ results, WfResult r)
    (hall : ∀ r ∈ results, r.status = "error")
    (hne : results ≠ []) (hsome : ∃ r ∈ results, r.code ≠ 404) :
    aggregateStatus results ∈ results.map ItemResult.code ∧
      ∀ r ∈ results, aggregateStatus results ≤ r.code := by
  have h1 := no_success_of_all_error hall
  have h2 := codes_filter_eq_self hwf
  rcases hres : results with _ | ⟨r, rs⟩
  · exact absurd hres hne
  subst hres
  have hnall : ((r :: rs).map ItemResult.code).all (fun x => x == 404) = false := by
    obtain ⟨e, he, hec⟩ := hsome
    rw [List.all_eq_false]
    exact ⟨e.code, List.mem_map_of_mem _ he, by simpa using hec⟩
  have hnall' : ((r.code :: rs.map ItemResult.code).all (fun x => x == 404)) = false := by
    simpa using hnall
  have hagg : aggregateStatus (r :: rs) = (rs.map ItemResult.code).foldl Nat.min r.code := by
    simp only [aggregateStatus, h1, h2, Bool.false_and, Bool.false_eq_true,
      if_false, List.map_cons]
    rw [if_neg (by simp [hnall'])]
  rw [hagg]
  constructor
  · rcases foldl_min_mem (rs.map ItemResult.code) r.code with h | h
    · rw [h, List.map_cons]; exact List.mem_cons_self _ _
    · rw [List.map_cons]; exact List.mem_cons_of_mem _ h
  · intro x hx
    rcases List.mem_cons.mp hx with rfl | h
    · exact foldl_min_le_init _ _
    · exact foldl_min_le_mem _ _ _ (List.mem_map_of_mem _ h)

/-- C4: for every non-empty batch delete request the aggregate status is
computed from the per-item outcomes: 200 if every item succeeded, 207 if
some succeeded and some failed, 404 if every item failed with code 404,
and otherwise the minimum of the per-item error codes. -/
theorem C4_batch_aggregate :
    ∀ (root : List String) (st : MediaState) (payload : List String)
      (st' : MediaState) (results : List ItemResult) (status : Nat),
      payload ≠ [] →
      delete_media_batch root st payload = .ok (st', results, status) →
      ((∀ r ∈ results, r.status = "success") → status = 200) ∧
      ((∃ r ∈ results, r.status = "success") →
        (∃ r ∈ results, r.status = "error") → status = 207) ∧
      ((∀ r ∈ results, r.status = "error" ∧ r.code = 404) → status = 404) ∧
      ((∀ r ∈ results, r.status = "error") → (∃ r ∈ results, r.code ≠ 404) →
        status ∈ results.map ItemResult.code ∧
          ∀ r ∈ results, status ≤ r.code) := by
  intro root st payload st' results status hne h
  simp only [delete_media_batch] at h
  rw [if_neg (by simpa using hne)] at h
  simp only [Except.ok.injEq, Prod.mk.injEq] at h
  rcases h with ⟨h1, h2, h3⟩
  have hres : results = (runBatch root st payload).2 := h2.symm
  have hstat : status = aggregateStatus (runBatch root st payload).2 := h3.symm
  have hwf : ∀ r ∈ results, WfResult r := by
    rw [hres]; exact runBatch_wf root payload st
  have hrne : results ≠ [] := by
    rw [hres]
    intro hnil
    have := runBatch_length root payload st
    rw [hnil] at this
    exact hne (List.eq_nil_of_length_eq_zero this.symm)
  rw [hres] at hwf hrne ⊢
  subst hstat
  refine ⟨?_, ?_, ?_, ?_⟩
  · exact fun hall => aggregate_all_success hrne hall
  · exact fun hs he => aggregate_mixed hs he
  · exact fun hall => aggregate_all_404 hrne hwf hall
  · exact fun hall hsome => aggregate_min hwf hall hrne hsome

/-- Witness for C4: an all-error batch against an empty store whose
status is the minimum error code 400. -/
theorem C4_witness :
    delete_media_batch ["m"] ⟨[], []⟩ ["nope.txt", "../x.jpg"] =
      .ok (⟨[], []⟩,
        [⟨"nope.txt", "error", "File type not allowed", 400⟩,
         ⟨"../x.jpg", "error", "Path must be inside media directory", 400⟩],
        400) ∧
    ((400 : Nat) ∈ List.map ItemResult.code
        [⟨"nope.txt", "error", "File type not allowed", 400⟩,
         ⟨"../x.jpg", "error", "Path must be inside media directory", 400⟩] ∧
      ∀ r ∈ [(⟨"nope.txt", "error", "File type not allowed", 400⟩ : ItemResult),
         ⟨"../x.jpg", "error", "Path must be inside media directory", 400⟩],
        (400 : Nat) ≤ r.code) := by
  have h := C4_batch_aggregate ["m"] ⟨[], []⟩ ["nope.txt", "../x.jpg"] ⟨[], []⟩
    [⟨"nope.txt", "error", "File type not allowed", 400⟩,
     ⟨"../x.jpg", "error", "Path must be inside media directory", 400⟩]
    400 (by decide) (by rfl)
  exact ⟨by rfl, h.2.2.2 (by decide) (by decide)⟩

/-- An ordinary path segment: nonempty and not one of the special
components "." and "..". -/
def NormalSeg (seg : String) : Prop := seg ≠ "" ∧ seg ≠ "." ∧ seg ≠ ".."

instance (seg : String) : Decidable (NormalSeg seg) := by
  unfold NormalSeg; infer_instance

/-- A well-formed media root: a nonempty normalized absolute directory
(whose last segment, for the concrete escape scenario below, is not
named "escape"). -/
def RootOk (root : List String) : Prop :=
  root ≠ [] ∧ (∀ s ∈ root, NormalSeg s) ∧ root.getLastD "" ≠ "escape"

instance (root : List String) : Decidable (RootOk root) := by
  unfold RootOk; infer_instance

theorem normAbsGo_cons_normal {a : String} (ha : NormalSeg a) (acc rest : List String) :
    normAbsGo acc (a :: rest) = normAbsGo (a :: acc) rest := by
  have h1 : ¬(a = "" ∨ a = ".") := by
    rintro (h | h)
    exacts [ha.1 h, ha.2.1 h]
  simp only [normAbsGo, if_neg h1, if_neg ha.2.2]

theorem normAbsGo_cons_dotdot (acc rest : List String) :
    normAbsGo acc (".." :: rest) = normAbsGo acc.tail rest := by
  have h1 : ¬((".." : String) = "" ∨ (".." : String) = ".") := by decide
  simp only [normAbsGo, if_neg h1, ite_true]

theorem normAbsGo_all_normal {l : List String} (hl : ∀ s ∈ l, NormalSeg s) :
    ∀ acc, normAbsGo acc l = acc.reverse ++ l := by
  induction l with
  | nil => intro acc; simp [normAbsGo]
  | cons a t ih =>
    intro acc
    have ha := hl a (List.mem_cons_self a t)
    rw [normAbsGo_cons_normal ha]
    rw [ih (fun s hs => hl s (List.mem_cons_of_mem a hs)) (a :: acc)]
    simp

theorem normAbsGo_append {l : List String} (hl : ∀ s ∈ l, NormalSeg s) :
    ∀ acc rest, normAbsGo acc (l ++ rest) = normAbsGo (l.reverse ++ acc) rest := by
  induction l with
  | nil => intro acc rest; simp
  | cons a t ih =>
    intro acc rest
    have ha := hl a (List.mem_cons_self a t)
    rw [List.cons_append]
    rw [normAbsGo_cons_normal ha]
    rw [ih (fun s hs => hl s (List.mem_cons_of_mem a hs)) (a :: acc) rest]
    congr 1
    simp

theorem validate_noext {root : List String} (hr : RootOk root) :
    validate_media_path root "does/not/exist" =
      .error (400, "File type not allowed") := by
  have hsplit : splitPath "does/not/exist" = ["does", "not", "exist"] := by decide
  have hss : strStartsWith "does/not/exist" "/" = false := by decide
  have hres : resolveUnderRoot root "does/not/exist" =
      root ++ ["does", "not", "exist"] := by
    simp only [resolveUnderRoot, hss, Bool.false_eq_true, if_false, hsplit, normAbs]
    rw [normAbsGo_append hr.2.1 [] _,
      normAbsGo_all_normal (by decide) (root.reverse ++ [])]
    simp
  simp only [validate_media_path]
  rw [if_neg (by decide : ¬("does/not/exist" = ""))]
  rw [hres]
  have hunder : segsUnderRoot root (root ++ ["does", "not", "exist"]) = true := by
    simp [segsUnderRoot, List.take_left]
  rw [if_pos hunder]
  have hname : (root ++ ["does", "not", "exist"]).getLastD "" = "exist" := by
    simp
  rw [hname]
  rw [if_neg (by decide : ¬(is_allowed_file "exist" = true))]

theorem validate_escape {root : List String} (hr : RootOk root) :
    validate_media_path root "../escape" =
      .error (400, "Path must be inside media directory") := by
  have hsplit : splitPath "../escape" = ["..", "escape"] := by decide
  have hss : strStartsWith "../escape" "/" = false := by decide
  have hres : resolveUnderRoot root "../escape" = root.dropLast ++ ["escape"] := by
    simp only [resolveUnderRoot, hss, Bool.false_eq_true, if_false, hsplit, normAbs]
    rw [normAbsGo_append hr.2.1 [] _]
    rw [normAbsGo_cons_dotdot]
    rw [normAbsGo_all_normal (by decide) _]
    simp
  simp only [validate_media_path]
  rw [if_neg (by decide : ¬("../escape" = ""))]
  rw [hres]
  have hne : root ≠ [] := hr.1
  have hunder : segsUnderRoot root (root.dropLast ++ ["escape"]) = false := by
    have hpos : 0 < root.length := List.length_pos.mpr hne
    have hlen : (root.dropLast ++ ["escape"]).length = root.length := by
      simp [List.length_dropLast]
      omega
    have htake : (root.dropLast ++ ["escape"]).take root.length =
        root.dropLast ++ ["escape"] := by
      rw [← hlen]; exact List.take_length _
    simp only [segsUnderRoot, htake]
    rw [beq_eq_false_iff_ne]
    intro he
    have hgl := List.dropLast_append_getLast hne
    have h2 : root.dropLast ++ ["escape"] = root.dropLast ++ [root.getLast hne] :=
      he.trans hgl.symm
    have h3 : "escape" = root.getLast hne := by
      simpa using List.append_cancel_left h2
    have hlast : root.getLastD "" = root.getLast hne := by
      rw [List.getLastD_eq_getLast?, List.getLast?_eq_getLast root hne]
      rfl
    exact hr.2.2 (hlast.trans h3.symm)
  rw [if_neg (by simp [hunder])]

/-- Counterexample to C2: in the batch [existing pic.jpg,
"does/not/exist", "../escape"] no outcome is a 404; "does/not/exist"
fails the extension allow-list check (400, File type not allowed)
before its existence is ever consulted. -/
theorem C2_counterexample :
    delete_media_batch ["srv", "media"] ⟨[["srv", "media", "pic.jpg"]], []⟩
        ["pic.jpg", "does/not/exist", "../escape"] =
      .ok (⟨[], []⟩,
        [⟨"pic.jpg", "success", "Deleted", 200⟩,
         ⟨"does/not/exist", "error", "File type not allowed", 400⟩,
         ⟨"../escape", "error", "Path must be inside media directory", 400⟩],
        207) ∧
    ∀ r ∈ [(⟨"pic.jpg", "success", "Deleted", 200⟩ : ItemResult),
        ⟨"does/not/exist", "error", "File type not allowed", 400⟩,
        ⟨"../escape", "error", "Path must be inside media directory", 400⟩],
      r.code ≠ 404 :=
  ⟨by rfl, by decide⟩

/-- C2 amended: batch deleting [an existing valid media path,
"does/not/exist", "../escape"] yields exactly three outcomes: one
success, one DisallowedType error (400, "File type not allowed") for
"does/not/exist" — the extension check precedes the existence check, so
no NotFound is reported — and one PathTraversal error (400) for
"../escape"; the overall status is the partial-failure status 207. -/
theorem C2_amended_batch :
    ∀ (root : List String) (st : MediaState) (p : String) (target : List String),
      RootOk root →
      is_link_path p = false →
      validate_media_path root p = .ok target →
      target ∈ st.files →
      delete_media_batch root st [p, "does/not/exist", "../escape"] =
        .ok (⟨st.files.erase target, st.links⟩,
          [⟨String.intercalate "/" (target.drop root.length), "success", "Deleted", 200⟩,
           ⟨"does/not/exist", "error", "File type not allowed", 400⟩,
           ⟨"../escape", "error", "Path must be inside media directory", 400⟩],
          207) := by
  intro root st p target hr hl hv hmem
  have h1 : deleteOneItem root st p =
      (⟨st.files.erase target, st.links⟩,
        ⟨String.intercalate "/" (target.drop root.length), "success", "Deleted", 200⟩) := by
    simp [deleteOneItem, hl, hv, hmem]
  have h2 : deleteOneItem root ⟨st.files.erase target, st.links⟩ "does/not/exist" =
      (⟨st.files.erase target, st.links⟩,
        ⟨"does/not/exist", "error", "File type not allowed", 400⟩) := by
    simp [deleteOneItem, (by decide : is_link_path "does/not/exist" = false),
      validate_noext hr]
  have h3 : deleteOneItem root ⟨st.files.erase target, st.links⟩ "../escape" =
      (⟨st.files.erase target, st.links⟩,
        ⟨"../escape", "error", "Path must be inside media directory", 400⟩) := by
    simp [deleteOneItem, (by decide : is_link_path "../escape" = false),
      validate_escape hr]
  simp only [delete_media_batch]
  rw [if_neg (by simp)]
  simp only [runBatch, h1, h2, h3]
  simp [aggregateStatus]

/-- Witness for the amended C2 at a concrete root, store and path. -/
theorem C2_amended_witness :
    delete_media_batch ["srv", "media"] ⟨[["srv", "media", "pic.jpg"]], []⟩
        ["pic.jpg", "does/not/exist", "../escape"] =
      .ok (⟨[], []⟩,
        [⟨"pic.jpg", "success", "Deleted", 200⟩,
         ⟨"does/not/exist", "error", "File type not allowed", 400⟩,
         ⟨"../escape", "error", "Path must be inside media directory", 400⟩],
        207) := by
  have h := C2_amended_batch ["srv", "media"] ⟨[["srv", "media", "pic.jpg"]], []⟩
    "pic.jpg" ["srv", "media", "pic.jpg"] (by decide) (by decide) (by rfl) (by decide)
  exact h

/-!
URL handling: a model of `urllib.parse.urlparse` / `geturl` as used by
`LinkStore._validate_url`. Parameters are kept inside the path
component, which `geturl` recombines identically, so the split into
scheme, netloc, path, query and fragment is exact for round-tripping.
-/

/-- Characters allowed in a URL scheme (letters, digits, "+", "-", "."). -/
def schemeChar (c : Char) : Bool :=
  c.isAlphanum || c == '+' || c == '-' || c == '.'

/-- Python `str.strip()`: remove whitespace from both ends. -/
def pyStrip (s : String) : String :=
  String.mk (((s.toList.dropWhile Char.isWhitespace).reverse.dropWhile
    Char.isWhitespace).reverse)

structure UrlParts where
  scheme : String
  netloc : String
  path : String
  query : String
  fragment : String
deriving DecidableEq, Repr

/-- Model of `urllib.parse.urlsplit` (with params left inside the path): tab, CR
and LF are removed; a leading run of scheme characters before a colon is
the (lowercased) scheme; "//" introduces the netloc, running to the next
"/", "?" or "#"; then the fragment is split at the first "#" and the
query at the first "?". -/
def pyUrlSplit (url : String) : UrlParts :=
  let l := url.toList.filter (fun c => !(c == '\t' || c == '\r' || c == '\n'))
  let pre := l.takeWhile (fun c => c != ':')
  let hasScheme := pre.length < l.length && !pre.isEmpty && pre.all schemeChar
  let scheme := if hasScheme then String.mk (pre.map Char.toLower) else ""
  let rest := if hasScheme then l.drop (pre.length + 1) else l
  let hasNetloc := rest.take 2 == ['/', '/']
  let netlocChars := if hasNetloc then
      (rest.drop 2).takeWhile (fun c => !(c == '/' || c == '?' || c == '#'))
    else []
  let rest2 := if hasNetloc then (rest.drop 2).dropWhile
      (fun c => !(c == '/' || c == '?' || c == '#'))
    else rest
  let beforeFrag := rest2.takeWhile (fun c => c != '#')
  let fragment := if beforeFrag.length < rest2.length then
      rest2.drop (beforeFrag.length + 1)
    else []
  let pathChars := beforeFrag.takeWhile (fun c => c != '?')
  let query := if pathChars.length < beforeFrag.length then
      beforeFrag.drop (pathChars.length + 1)
    else []
  ⟨scheme, String.mk netlocChars, String.mk pathChars,
    String.mk query, String.mk fragment⟩

/-- Model of `urllib.parse.urlunsplit`, the reassembly behind `geturl()`. -/
def pyUrlUnsplit (u : UrlParts) : String :=
  let url1 := if u.netloc ≠ "" ∨ strStartsWith u.path "//" then
      (if u.path ≠ "" ∧ ¬ strStartsWith u.path "/" then
        "//" ++ u.netloc ++ "/" ++ u.path
      else "//" ++ u.netloc ++ u.path)
    else u.path
  let url2 := if u.scheme ≠ "" then u.scheme ++ ":" ++ url1 else url1
  let url3 := if u.query ≠ "" then url2 ++ "?" ++ u.query else url2
  if u.fragment ≠ "" then url3 ++ "#" ++ u.fragment else url3

/-- Model of `LinkStore._validate_url` (main.py lines 205-209): the stripped URL
must parse to an https scheme with a nonempty netloc; the result is the
reassembled URL and the netloc. -/
def validate_url (url : String) : Except String (String × String) :=
  let parsed := pyUrlSplit (pyStrip url)
  if parsed.scheme ≠ "https" ∨ parsed.netloc = "" then
    .error "Provide a valid https URL"
  else .ok (pyUrlUnsplit parsed, parsed.netloc)

/-- Model of `LinkStore._resolve_category` (main.py lines 211-219): a category
that normalizes to None resolves silently to no category; otherwise it
must match an existing record by name or by path. -/
def resolve_link_category (cats : List Category) (category : Option String) :
    Except String (Option String × Option String) :=
  match normalize_category category with
  | none => .ok (none, none)
  | some normalized =>
    let record := match get_by_name cats normalized with
      | some c => some c
      | none => get_by_path cats (some normalized)
    match record with
    | none => .error "Unknown category"
    | some c => .ok (some c.name, some c.path)

/-- The display-name default of `LinkStore.add`:
`name.strip() if name and name.strip() else domain`. -/
def linkDisplayName (name : Option String) (domain : String) : String :=
  match name with
  | some nm => if pyStrip nm ≠ "" then pyStrip nm else domain
  | none => domain

/-- Model of `LinkStore.add` (main.py lines 221-239). The random id
(`secrets.token_hex(8)`) and the timestamp (`datetime.utcnow()`) are
inputs of the model. Returns the outcome and the resulting link list
(unchanged on error). -/
def linkAdd (cats : List Category) (links : List Link) (url : String)
    (name : Option String) (category : Option String)
    (freshId nowIso : String) : Except String Link × List Link :=
  match validate_url url with
  | .error e => (.error e, links)
  | .ok (clean_url, domain) =>
    match resolve_link_category cats category with
    | .error e => (.error e, links)
    | .ok (resolved_category, resolved_path) =>
      if links.any (fun link => link.url == clean_url) then
        (.error "Link already added", links)
      else
        let link : Link := ⟨freshId, linkDisplayName name domain, clean_url,
          domain, resolved_category, resolved_path, nowIso⟩
        (.ok link, links ++ [link])

/-- C7: `LinkStore.add` fails with InvalidURL for every URL that does
not parse as absolute HTTPS with a nonempty host; fails with
UnknownCategory when the category normalizes to a value matching no
record by name or path; fails with DuplicateURL when a stored link
already carries the identical post-normalization URL; each failure
leaves the link list unchanged; and on success it appends exactly one
link, whose display name defaults to the URL's host when no usable name
is given. -/
theorem C7_linkAdd_semantics :
    (∀ cats links url name category freshId nowIso,
      ((pyUrlSplit (pyStrip url)).scheme ≠ "https" ∨
        (pyUrlSplit (pyStrip url)).netloc = "") →
      linkAdd cats links url name category freshId nowIso =
        (.error "Provide a valid https URL", links)) ∧
    (∀ cats links url name category freshId nowIso cu dom m,
      validate_url url = .ok (cu, dom) →
      normalize_category category = some m →
      get_by_name cats m = none →
      get_by_path cats (some m) = none →
      linkAdd cats links url name category freshId nowIso =
        (.error "Unknown category", links)) ∧
    (∀ cats links url name category freshId nowIso cu dom rc rp,
      validate_url url = .ok (cu, dom) →
      resolve_link_category cats category = .ok (rc, rp) →
      (∃ l ∈ links, l.url = cu) →
      linkAdd cats links url name category freshId nowIso =
        (.error "Link already added", links)) ∧
    (∀ cats links url name category freshId nowIso cu dom rc rp,
      validate_url url = .ok (cu, dom) →
      resolve_link_category cats category = .ok (rc, rp) →
      (∀ l ∈ links, l.url ≠ cu) →
      linkAdd cats links url name category freshId nowIso =
        (.ok ⟨freshId, linkDisplayName name dom, cu, dom, rc, rp, nowIso⟩,
          links ++ [⟨freshId, linkDisplayName name dom, cu, dom, rc, rp, nowIso⟩]) ∧
      linkDisplayName none dom = dom) := by
  refine ⟨?_, ?_, ?_, ?_⟩
  · intro cats links url name category freshId nowIso hbad
    have hv : validate_url url = .error "Provide a valid https URL" := by
      simp only [validate_url]
      rw [if_pos hbad]
    simp [linkAdd, hv]
  · intro cats links url name category freshId nowIso cu dom m hv hm hgn hgp
    have hres : resolve_link_category cats category = .error "Unknown category" := by
      simp [resolve_link_category, hm, hgn, hgp]
    simp [linkAdd, hv, hres]
  · intro cats links url name category freshId nowIso cu dom rc rp hv hres hdup
    obtain ⟨l, hl, hlu⟩ := hdup
    have hany : links.any (fun link => link.url == cu) = true :=
      List.any_eq_true.mpr ⟨l, hl, by simp [hlu]⟩
    simp [linkAdd, hv, hres, hany]
  · intro cats links url name category freshId nowIso cu dom rc rp hv hres hfresh
    have hany : links.any (fun link => link.url == cu) = false := by
      rw [List.any_eq_false]
      intro l hl
      simp [hfresh l hl]
    refine ⟨by simp [linkAdd, hv, hres, hany], rfl⟩

/-- Witness for C7: the spec's concrete URLs against an empty store. -/
theorem C7_witness :
    linkAdd [] [] "http://example.com" none none "id1" "t1" =
      (.error "Provide a valid https URL", []) ∧
    linkAdd [] [] "https://example.com/a" none (some "Trips") "id1" "t1" =
      (.error "Unknown category", []) ∧
    linkAdd [] [⟨"id0", "example.com", "https://example.com/a", "example.com",
        none, none, "t0"⟩] "https://example.com/a" none none "id1" "t1" =
      (.error "Link already added",
        [⟨"id0", "example.com", "https://example.com/a", "example.com",
          none, none, "t0"⟩]) ∧
    linkAdd [] [] "https://example.com/a" none none "id1" "t1" =
      (.ok ⟨"id1", "example.com", "https://example.com/a", "example.com",
          none, none, "t1"⟩,
        [⟨"id1", "example.com", "https://example.com/a", "example.com",
          none, none, "t1"⟩]) := by
  refine ⟨?_, ?_, ?_, ?_⟩
  · exact C7_linkAdd_semantics.1 [] [] "http://example.com" none none "id1" "t1"
      (by decide)
  · exact C7_linkAdd_semantics.2.1 [] [] "https://example.com/a" none
      (some "Trips") "id1" "t1" "https://example.com/a" "example.com" "Trips"
      (by rfl) (by decide) (by decide) (by decide)
  · exact C7_linkAdd_semantics.2.2.1 []
      [⟨"id0", "example.com", "https://example.com/a", "example.com", none, none, "t0"⟩]
      "https://example.com/a" none none "id1" "t1" "https://example.com/a"
      "example.com" none none (by rfl) (by rfl)
      ⟨_, List.mem_singleton.mpr rfl, rfl⟩
  · exact (C7_linkAdd_semantics.2.2.2 [] [] "https://example.com/a" none none
      "id1" "t1" "https://example.com/a" "example.com" none none
      (by rfl) (by rfl) (by intro l hl; cases hl)).1

/-- C10: a non-null category string that normalizes to empty (for
example "!!!") raises no UnknownCategory from link creation: the call
behaves exactly as if no category had been supplied, and a successful
add stores the link with null category and category path. -/
theorem C10_empty_category_silent :
    ∀ cats links url name c freshId nowIso,
      normalize_category (some c) = none →
      linkAdd cats links url name (some c) freshId nowIso =
        linkAdd cats links url name none freshId nowIso ∧
      (∀ cu dom, validate_url url = .ok (cu, dom) →
        (∀ l ∈ links, l.url ≠ cu) →
        linkAdd cats links url name (some c) freshId nowIso =
          (.ok ⟨freshId, linkDisplayName name dom, cu, dom, none, none, nowIso⟩,
            links ++ [⟨freshId, linkDisplayName name dom, cu, dom, none,
              none, nowIso⟩])) := by
  intro cats links url name c freshId nowIso hc
  have hres : resolve_link_category cats (some c) = .ok (none, none) := by
    simp [resolve_link_category, hc]
  have hresn : resolve_link_category cats none = .ok (none, none) := by
    simp [resolve_link_category, normalize_category]
  constructor
  · unfold linkAdd
    rw [hres, hresn]
  · intro cu dom hv hfresh
    exact ((C7_linkAdd_semantics.2.2.2 cats links url name (some c) freshId
      nowIso cu dom none none hv hres hfresh).1)

/-- Witness for C10 with the category string "!!!". -/
theorem C10_witness :
    linkAdd [] [] "https://example.com/a" none (some "!!!") "id1" "t1" =
      linkAdd [] [] "https://example.com/a" none none "id1" "t1" ∧
    linkAdd [] [] "https://example.com/a" none (some "!!!") "id1" "t1" =
      (.ok ⟨"id1", "example.com", "https://example.com/a", "example.com",
          none, none, "t1"⟩,
        [⟨"id1", "example.com", "https://example.com/a", "example.com",
          none, none, "t1"⟩]) := by
  have h := C10_empty_category_silent [] [] "https://example.com/a" none "!!!"
    "id1" "t1" (by decide)
  exact ⟨h.1, h.2 "https://example.com/a" "example.com" (by rfl)
    (by intro l hl; cases hl)⟩

/-!
Media listing. A filesystem scan entry carries its path segments
relative to the media root, its size and its modification timestamp in
ISO form (which is how the source compares: the sort key is the ISO
string). Fields irrelevant to every claim (mime type, the link id and
domain repeated in the dictionary) are not modelled.
-/

structure FsFile where
  segs : List String
  size : Nat
  modifiedIso : String
deriving DecidableEq, Repr

structure MediaItem where
  name : String
  path : String
  category : Option String
  category_path : Option String
  size : Option Nat
  modified : String
  url : String
  source : String
deriving DecidableEq, Repr

/-- The body of the file loop of `list_media` (main.py lines 275-299):
skip disallowed extensions, resolve the first path segment against the
category store (falling back to the raw directory name), apply the
filter, and build the item. -/
def fileItem? (cats : List Category) (filter_category : Option String)
    (f : FsFile) : Option MediaItem :=
  if is_allowed_file (f.segs.getLastD "") then
    let category_path := if f.segs.length > 1 then some (f.segs.headD "") else none
    let item_category := match get_by_path cats category_path with
      | some c => some c.name
      | none => category_path
    if filter_category ≠ none ∧ filter_category ≠ item_category then none
    else some ⟨f.segs.getLastD "", String.intercalate "/" f.segs, item_category,
      category_path, some f.size, f.modifiedIso,
      "/media/" ++ String.intercalate "/" f.segs, "file"⟩
  else none

/-- The body of the link loop of `list_media` (main.py lines 301-319). -/
def linkItem? (filter_category : Option String) (link : Link) : Option MediaItem :=
  if filter_category ≠ none ∧ filter_category ≠ link.category then none
  else some ⟨link.name, "link:" ++ link.id, link.category, link.category_path,
    none, link.added, link.url, "link"⟩

/-- Model of `list_media` (main.py lines 269-321): filesystem items, then link
items, sorted by the modified field, descending, with Python's stable
sort. -/
def list_media (cats : List Category) (links : List Link)
    (files : List FsFile) (category : Option String) : List MediaItem :=
  let filter_category := normalize_category category
  let items := files.filterMap (fileItem? cats filter_category) ++
    links.filterMap (linkItem? filter_category)
  items.mergeSort (fun a b => decide (b.modified ≤ a.modified))

/-- C9: every media listing, with or without a category filter, is
sorted in descending order of the modified/added timestamp field, over
both filesystem items and merged link items. -/
theorem C9_listing_sorted :
    ∀ (cats : List Category) (links : List Link) (files : List FsFile)
      (category : Option String),
      (list_media cats links files category).Pairwise
        (fun a b => b.modified ≤ a.modified) := by
  intro cats links files category
  unfold list_media
  refine List.Pairwise.imp ?_ (List.sorted_mergeSort ?_ ?_ _)
  · intro a b hab
    simpa using hab
  · intro a b c hab hbc
    simp only [decide_eq_true_eq] at hab hbc ⊢
    exact le_trans hbc hab
  · intro a b
    rcases le_total b.modified a.modified with h | h
    · simp [h]
    · simp [h]

/-!
Injectivity of the decimal rendering `Nat.repr`, needed to show that the
collision counter of the upload path resolver never repeats a candidate
name and therefore terminates.
-/

/-- The decimal digit characters of a number, most significant first:
the list that `Nat.repr` produces. -/
def decimalChars (n : Nat) : List Char :=
  if n < 10 then [Nat.digitChar n]
  else decimalChars (n / 10) ++ [Nat.digitChar (n % 10)]
termination_by n
decreasing_by exact Nat.div_lt_self (by omega) (by omega)

theorem decimalChars_lt {n : Nat} (h : n < 10) :
    decimalChars n = [Nat.digitChar n] := by
  rw [decimalChars, if_pos h]

theorem decimalChars_ge {n : Nat} (h : ¬ n < 10) :
    decimalChars n = decimalChars (n / 10) ++ [Nat.digitChar (n % 10)] := by
  rw [decimalChars, if_neg h]

theorem decimalChars_ne_nil (n : Nat) : decimalChars n ≠ [] := by
  by_cases h : n < 10
  · rw [decimalChars_lt h]; simp
  · rw [decimalChars_ge h]; simp

theorem toDigitsCore_eq_decimalChars (f : Nat) :
    ∀ (n : Nat) (ds : List Char), n < f →
      Nat.toDigitsCore 10 f n ds = decimalChars n ++ ds := by
  induction f with
  | zero => intro n ds h; omega
  | succ f ih =>
    intro n ds h
    simp only [Nat.toDigitsCore]
    by_cases h0 : n / 10 = 0
    · have hn : n < 10 := by omega
      rw [if_pos h0, decimalChars_lt hn, Nat.mod_eq_of_lt hn]
      rfl
    · have hn : ¬ n < 10 := by omega
      have hlt : n / 10 < f := by omega
      rw [if_neg h0, ih (n / 10) _ hlt, decimalChars_ge hn]
      simp

theorem digitChar_inj_lt : ∀ a < 10, ∀ b < 10,
    Nat.digitChar a = Nat.digitChar b → a = b := by decide

theorem decimalChars_inj : ∀ m n, decimalChars m = decimalChars n → m = n := by
  intro m
  induction m using Nat.strong_induction_on with
  | _ m ih =>
    intro n h
    by_cases hm : m < 10
    · by_cases hn : n < 10
      · rw [decimalChars_lt hm, decimalChars_lt hn] at h
        exact digitChar_inj_lt m hm n hn (by injection h)
      · rw [decimalChars_lt hm, decimalChars_ge hn] at h
        have := congrArg List.length h
        simp at this
        exact absurd this (decimalChars_ne_nil (n / 10))
    · by_cases hn : n < 10
      · rw [decimalChars_ge hm, decimalChars_lt hn] at h
        have := congrArg List.length h
        simp at this
        exact absurd this (decimalChars_ne_nil (m / 10))
      · rw [decimalChars_ge hm, decimalChars_ge hn] at h
        have h2 := congrArg List.reverse h
        simp at h2
        have hmod : m % 10 = n % 10 :=
          digitChar_inj_lt (m % 10) (Nat.mod_lt m (by omega)) (n % 10)
            (Nat.mod_lt n (by omega)) h2.1
        have hdiv : m / 10 = n / 10 :=
          ih (m / 10) (Nat.div_lt_self (by omega) (by omega)) (n / 10) h2.2
        omega

theorem nat_repr_inj : ∀ {m n : Nat}, Nat.repr m = Nat.repr n → m = n := by
  intro m n h
  have hm : Nat.toDigits 10 m = decimalChars m := by
    unfold Nat.toDigits
    rw [toDigitsCore_eq_decimalChars (m + 1) m [] (Nat.lt_succ_self m)]
    simp
  have hn : Nat.toDigits 10 n = decimalChars n := by
    unfold Nat.toDigits
    rw [toDigitsCore_eq_decimalChars (n + 1) n [] (Nat.lt_succ_self n)]
    simp
  have hdata : Nat.toDigits 10 m = Nat.toDigits 10 n := congrArg String.data h
  rw [hm, hn] at hdata
  exact decimalChars_inj m n hdata

/-- The candidate filename tried at counter value `k` by
`_resolve_target_path` (main.py line 446): the literal name at 0,
otherwise the stem with `_k` appended before the extension. -/
def candidateName (safeName stem sfx : String) (k : Nat) : String :=
  if k = 0 then safeName else stem ++ "_" ++ Nat.repr k ++ sfx

/-- The `while True` collision loop of `_resolve_target_path` (main.py
lines 444-457) with an explicit fuel argument standing in for the
unbounded loop; `none` is fuel exhaustion, which the theorems below show
cannot happen at the fuel used by `resolve_target_path`. Each candidate
is resolved below the target directory, checked against the media root
(escaping raises the traversal error) and returned when no filesystem
entry occupies it. -/
def resolveLoop (occupied : List (List String)) (root dirSegs : List String)
    (safeName stem sfx : String) :
    Nat → Nat → Option (Except (Nat × String) (List String))
  | 0, _ => none
  | fuel + 1, counter =>
    let cname := candidateName safeName stem sfx counter
    let cand := normAbs (dirSegs ++ [cname])
    if segsUnderRoot root cand then
      if cand ∈ occupied then
        resolveLoop occupied root dirSegs safeName stem sfx fuel (counter + 1)
      else some (.ok cand)
    else some (.error (400, "Path must be inside media directory"))

/-- Model of `_resolve_target_path` (main.py lines 430-457): the basename of the
supplied filename must equal it, be nonempty and have a stem; then the
collision loop runs (the fuel `occupied.length + 2` is provably enough
for the loop of the source, which has no bound). -/
def resolve_target_path (occupied : List (List String)) (root dirSegs : List String)
    (filename : String) : Option (Except (Nat × String) (List String)) :=
  let safeName := pyNameStr filename
  if safeName ≠ filename ∨ safeName = "" ∨ (pyStemSuffix safeName).1 = "" then
    some (.error (400, "Filename cannot contain path separators and must include a name"))
  else
    resolveLoop occupied root dirSegs safeName (pyStemSuffix safeName).1
      (pyStemSuffix safeName).2 (occupied.length + 2) 0

theorem mk_append_mk (a b : List Char) :
    String.mk a ++ String.mk b = String.mk (a ++ b) := rfl

/-- The stem and suffix of a name concatenate back to the name. -/
theorem pyStemSuffix_append (name : String) :
    (pyStemSuffix name).1 ++ (pyStemSuffix name).2 = name := by
  unfold pyStemSuffix
  dsimp only
  split
  · show String.mk (name.toList.take _) ++ String.mk (name.toList.drop _) = name
    rw [mk_append_mk, List.take_append_drop]
    rfl
  · show name ++ "" = name
    simp

theorem repr_data_eq (n : Nat) : (Nat.repr n).data = decimalChars n := by
  show (Nat.toDigits 10 n).asString.data = decimalChars n
  rw [show ((Nat.toDigits 10 n).asString.data) = Nat.toDigits 10 n from rfl]
  unfold Nat.toDigits
  rw [toDigitsCore_eq_decimalChars (n + 1) n [] (Nat.lt_succ_self n)]
  simp

theorem repr_length_pos (n : Nat) : 0 < (Nat.repr n).data.length := by
  rw [repr_data_eq]
  rcases hd : decimalChars n with _ | ⟨c, cs⟩
  · exact absurd hd (decimalChars_ne_nil n)
  · simp

/-- Distinct counter values produce distinct candidate names. -/
theorem candidateName_inj {safeName stem sfx : String}
    (hids : stem ++ sfx = safeName) :
    ∀ i j, candidateName safeName stem sfx i = candidateName safeName stem sfx j →
      i = j := by
  have key : ∀ j, j ≠ 0 → safeName ≠ stem ++ "_" ++ Nat.repr j ++ sfx := by
    intro j hj he
    rw [← hids] at he
    have hd := congrArg (fun s => s.data.length) he
    simp only [String.data_append, List.length_append] at hd
    have := repr_length_pos j
    have hu : ("_" : String).data.length = 1 := rfl
    omega
  intro i j h
  unfold candidateName at h
  by_cases hi : i = 0
  · by_cases hj : j = 0
    · omega
    · rw [if_pos hi, if_neg hj] at h
      exact absurd h (key j hj)
  · by_cases hj : j = 0
    · rw [if_neg hi, if_pos hj] at h
      exact absurd h.symm (key i hi)
    · rw [if_neg hi, if_neg hj] at h
      have hd := congrArg String.data h
      simp only [String.data_append, List.append_cancel_left_eq,
        List.append_cancel_right_eq] at hd
      have hrepr : Nat.repr i = Nat.repr j := by
        have := congrArg String.mk hd
        exact this
      exact nat_repr_inj hrepr

/-- A candidate name with a positive counter is an ordinary segment: it
contains an underscore, which "", "." and ".." do not. -/
theorem normal_candidate (safeName stem sfx : String) {k : Nat} (hk : k ≠ 0) :
    NormalSeg (candidateName safeName stem sfx k) := by
  unfold candidateName
  rw [if_neg hk]
  have hmem : '_' ∈ (stem ++ "_" ++ Nat.repr k ++ sfx).data := by
    simp only [String.data_append]
    refine List.mem_append.mpr (Or.inl ?_)
    refine List.mem_append.mpr (Or.inl ?_)
    exact List.mem_append.mpr (Or.inr (by decide))
  refine ⟨?_, ?_, ?_⟩
  · intro he
    rw [he] at hmem
    simp at hmem
  · intro he
    rw [he] at hmem
    simp at hmem
  · intro he
    rw [he] at hmem
    simp at hmem

theorem under_append {root dirSegs : List String}
    (hroot : segsUnderRoot root dirSegs = true) (x : String) :
    segsUnderRoot root (dirSegs ++ [x]) = true := by
  simp only [segsUnderRoot, beq_iff_eq] at hroot ⊢
  have hle : root.length ≤ dirSegs.length := by
    have hlen := congrArg List.length hroot
    simp [List.length_take] at hlen
    omega
  have h1 : (dirSegs ++ [x]).take root.length = dirSegs.take root.length :=
    List.take_eq_left_iff.mpr (Or.inr hle)
  rw [h1, hroot]

/-- Among the first `occupied.length + 2` counter values there is one
whose candidate path is not occupied: the candidate paths for distinct
positive counters are pairwise distinct, so they cannot all lie in
`occupied`. -/
theorem exists_free_candidate (occupied : List (List String))
    (dirSegs : List String) (safeName stem sfx : String)
    (hids : stem ++ sfx = safeName) :
    ∃ k, k < occupied.length + 2 ∧
      dirSegs ++ [candidateName safeName stem sfx k] ∉ occupied := by
  by_contra hall
  push_neg at hall
  have hstep : ∀ p ∈ (List.range' 1 (occupied.length + 1)).map
      (fun k => dirSegs ++ [candidateName safeName stem sfx k]), p ∈ occupied := by
    intro p hp
    rcases List.mem_map.mp hp with ⟨k, hk, rfl⟩
    rcases List.mem_range'.mp hk with ⟨i, hi, rfl⟩
    exact hall (1 + 1 * i) (by omega)
  have hnodup : ((List.range' 1 (occupied.length + 1)).map
      (fun k => dirSegs ++ [candidateName safeName stem sfx k])).Nodup := by
    refine List.Nodup.map_on ?_ (List.nodup_range' _ _)
    intro x hx y hy he
    have hcn : candidateName safeName stem sfx x = candidateName safeName stem sfx y := by
      have := List.append_cancel_left he
      simpa using this
    exact candidateName_inj hids x y hcn
  have hlen := (List.Nodup.subperm hnodup hstep).length_le
  simp at hlen

/-- The collision loop returns the candidate of the first free counter,
given enough fuel: the result path is free, every earlier counter from
the start of the loop was occupied, and the loop cannot fail. -/
theorem resolveLoop_finds (occupied : List (List String))
    (root dirSegs : List String) (safeName stem sfx : String)
    (hdir : ∀ s ∈ dirSegs, NormalSeg s)
    (hroot : segsUnderRoot root dirSegs = true)
    (hnorm : ∀ k, NormalSeg (candidateName safeName stem sfx k)) :
    ∀ fuel counter,
      (∃ k, k < fuel ∧
        dirSegs ++ [candidateName safeName stem sfx (counter + k)] ∉ occupied) →
      ∃ K, counter ≤ K ∧
        resolveLoop occupied root dirSegs safeName stem sfx fuel counter =
          some (.ok (dirSegs ++ [candidateName safeName stem sfx K])) ∧
        (∀ j, counter ≤ j → j < K →
          dirSegs ++ [candidateName safeName stem sfx j] ∈ occupied) ∧
        dirSegs ++ [candidateName safeName stem sfx K] ∉ occupied := by
  intro fuel
  induction fuel with
  | zero =>
    rintro counter ⟨k, hk, _⟩
    omega
  | succ fuel ih =>
    rintro counter ⟨k, hk, hfree⟩
    have hcand : normAbs (dirSegs ++ [candidateName safeName stem sfx counter]) =
        dirSegs ++ [candidateName safeName stem sfx counter] := by
      unfold normAbs
      rw [normAbsGo_all_normal (fun s hs => by
        rcases List.mem_append.mp hs with h | h
        · exact hdir s h
        · rcases List.mem_singleton.mp h with rfl
          exact hnorm counter) []]
      simp
    have hunder := under_append hroot (candidateName safeName stem sfx counter)
    by_cases hmem : dirSegs ++ [candidateName safeName stem sfx counter] ∈ occupied
    · have hstep : resolveLoop occupied root dirSegs safeName stem sfx (fuel + 1) counter =
          resolveLoop occupied root dirSegs safeName stem sfx fuel (counter + 1) := by
        simp only [resolveLoop, hcand, hunder]
        rw [if_pos trivial, if_pos hmem]
      have hk0 : k ≠ 0 := by
        intro h0
        rw [h0, Nat.add_zero] at hfree
        exact hfree hmem
      obtain ⟨K, hK1, hK2, hK3, hK4⟩ := ih (counter + 1)
        ⟨k - 1, by omega, by
          have heq : counter + 1 + (k - 1) = counter + k := by omega
          rw [heq]
          exact hfree⟩
      refine ⟨K, by omega, by rw [hstep]; exact hK2, ?_, hK4⟩
      intro j hj1 hj2
      by_cases hjc : j = counter
      · rw [hjc]; exact hmem
      · exact hK3 j (by omega) hj2
    · refine ⟨counter, Nat.le_refl _, ?_,
        fun j hj1 hj2 => absurd (Nat.lt_of_lt_of_le hj2 hj1) (Nat.lt_irrefl j), hmem⟩
      simp only [resolveLoop, hcand, hunder]
      rw [if_pos trivial, if_neg hmem]

/-- C5: for a valid filename, upload target resolution returns the
literal name when it is free and otherwise the first `stem_k` name
(counter incremented by one each try) whose path is free; the returned
path never refers to an existing entry, and two sequential calls with
the same filename into the same directory return distinct paths. -/
theorem C5_upload_collision_free :
    ∀ (root dirSegs : List String) (filename stem sfx : String),
      pyNameStr filename = filename →
      filename ≠ "" →
      pyStemSuffix filename = (stem, sfx) →
      stem ≠ "" →
      NormalSeg filename →
      (∀ s ∈ dirSegs, NormalSeg s) →
      segsUnderRoot root dirSegs = true →
      (∀ occupied, ∃ K,
        resolve_target_path occupied root dirSegs filename =
          some (.ok (dirSegs ++ [candidateName filename stem sfx K])) ∧
        (∀ j, j < K → dirSegs ++ [candidateName filename stem sfx j] ∈ occupied) ∧
        dirSegs ++ [candidateName filename stem sfx K] ∉ occupied) ∧
      (∀ occupied p1 p2,
        resolve_target_path occupied root dirSegs filename = some (.ok p1) →
        resolve_target_path (p1 :: occupied) root dirSegs filename = some (.ok p2) →
        p2 ≠ p1) := by
  intro root dirSegs filename stem sfx hname hne hss hstem hnseg hdir hroot
  have hids : stem ++ sfx = filename := by
    have h := pyStemSuffix_append filename
    rw [hss] at h
    exact h
  have hnorm : ∀ k, NormalSeg (candidateName filename stem sfx k) := by
    intro k
    by_cases hk : k = 0
    · rw [hk]
      unfold candidateName
      rw [if_pos rfl]
      exact hnseg
    · exact normal_candidate filename stem sfx hk
  have hval : ∀ occupied, resolve_target_path occupied root dirSegs filename =
      resolveLoop occupied root dirSegs filename stem sfx (occupied.length + 2) 0 := by
    intro occupied
    unfold resolve_target_path
    dsimp only
    rw [hname, hss]
    rw [if_neg (by
      rintro (h | h | h)
      · exact h rfl
      · exact hne h
      · exact hstem (by simpa using h))]
  have hmain : ∀ occupied, ∃ K,
      resolve_target_path occupied root dirSegs filename =
        some (.ok (dirSegs ++ [candidateName filename stem sfx K])) ∧
      (∀ j, j < K → dirSegs ++ [candidateName filename stem sfx j] ∈ occupied) ∧
      dirSegs ++ [candidateName filename stem sfx K] ∉ occupied := by
    intro occupied
    obtain ⟨k, hk, hfree⟩ := exists_free_candidate occupied dirSegs filename stem
      sfx hids
    obtain ⟨K, _, hK2, hK3, hK4⟩ := resolveLoop_finds occupied root dirSegs
      filename stem sfx hdir hroot hnorm (occupied.length + 2) 0
      ⟨k, hk, by simpa using hfree⟩
    exact ⟨K, (hval occupied).trans hK2,
      fun j hj => hK3 j (Nat.zero_le j) hj, hK4⟩
  refine ⟨hmain, ?_⟩
  intro occupied p1 p2 h1 h2
  obtain ⟨K2, hK2, _, hfree2⟩ := hmain (p1 :: occupied)
  rw [h2] at hK2
  simp only [Option.some.injEq, Except.ok.injEq] at hK2
  rw [hK2]
  intro he
  exact hfree2 (he ▸ List.mem_cons_self p1 occupied)

/-- Witness for C5: photo.jpg resolves to itself in an empty directory,
then to photo_1.jpg once photo.jpg exists, two distinct paths. -/
theorem C5_witness :
    resolve_target_path [] ["m"] ["m"] "photo.jpg" =
      some (.ok ["m", "photo.jpg"]) ∧
    resolve_target_path [["m", "photo.jpg"]] ["m"] ["m"] "photo.jpg" =
      some (.ok ["m", "photo_1.jpg"]) ∧
    (["m", "photo_1.jpg"] : List String) ≠ ["m", "photo.jpg"] := by
  have h := C5_upload_collision_free ["m"] ["m"] "photo.jpg" "photo" ".jpg"
    (by rfl) (by decide) (by rfl) (by decide) (by decide) (by decide) (by rfl)
  exact ⟨by rfl, by rfl,
    h.2 [] ["m", "photo.jpg"] ["m", "photo_1.jpg"] (by rfl) (by rfl)⟩

end PatsFunhaus
